import Mathlib

/-!
A verification development for the consistent-hashing load balancer
(src/load_balancer.c, src/server.c, src/lru_cache.c).

The C code is shallowly embedded as executable Lean definitions:

* The LRU cache (`lru_cache`) keeps the C representation: an array of
  bucket chains (`buckets`), a doubly linked recency list (`index`, head =
  least recently used, tail = most recently used), and a stored `size`.
  Heap pointers from a bucket entry (`info.pointer_to_node`) to its
  recency node are modelled by numeric node identities (`dll_node.nid`)
  allocated from a counter `next_id` that stands for malloc.  In the C,
  following a stale `pointer_to_node` whose node is gone is undefined
  behaviour; the model treats a lookup of an absent node id as a failed
  key comparison, which coincides with the C on every state where the
  back-references are intact (the invariant proved below).
* The C stores its hash function inside the cache structure
  (`cache->hash_function = hash_string`); `hash_string` itself is
  declared in utils.h but its definition is not part of src, so every
  operation here takes the hash function as an explicit parameter `hf`.
* Strings are C strings compared with `strcmp`; values are `strdup`ed
  documents.  Both are Lean `String`s.
-/

set_option maxRecDepth 40000
set_option maxHeartbeats 1000000

/-- The C `struct info`: a bucket entry holding a key, a value and the
back-reference to its node in the recency list (`pointer_to_node`,
modelled as the node's numeric identity). -/
structure info where
  key : String
  value : String
  pointer_to_node : Nat
deriving DecidableEq

/-- A node of the recency list `cache->index` (C `dll_node_t` whose `data`
is a copy of an `info`).  The copied `pointer_to_node` field of the stored
`info` is never read back by the C code, so it is not modelled. -/
structure dll_node where
  nid : Nat
  key : String
  value : String
deriving DecidableEq

/-- The C `struct lru_cache`.  `buckets` has `capacity` chains; `index` is
the recency list ordered LRU (head) to MRU (tail); `size` is the stored
counter.  `next_id` supplies fresh node identities (modelling malloc). -/
structure lru_cache where
  capacity : Nat
  buckets : List (List info)
  size : Nat
  index : List dll_node
  next_id : Nat
deriving DecidableEq

/-- `init_lru_cache`: `capacity` empty buckets, empty recency list, size 0. -/
def init_lru_cache (cache_capacity : Nat) : lru_cache :=
  { capacity := cache_capacity
    buckets := List.replicate cache_capacity []
    size := 0
    index := []
    next_id := 0 }

/-- All bucket entries, in the order `get_all_keys` walks them: bucket 0
first, each chain head first. -/
def cache_entries (c : lru_cache) : List info :=
  c.buckets.flatten

/-- Dereference a `pointer_to_node`: find the recency node with this
identity (in the C this is just following the pointer). -/
def find_node (idx : List dll_node) (p : Nat) : Option dll_node :=
  idx.find? (fun n => n.nid == p)

/-- `dll_remove_node`: unlink the node with identity `p` from the recency
list (O(1) pointer surgery in the C; removing the first — under the
invariant the only — node with this identity here). -/
def dll_remove_node (idx : List dll_node) (p : Nat) : List dll_node :=
  idx.eraseP (fun n => n.nid == p)

/-- The bucket unlink inside `lru_cache_put`'s eviction: walk the chain
and remove the first entry whose key compares equal to the evicted key. -/
def ll_erase_first_key (bucket : List info) (k : String) : List info :=
  bucket.eraseP (fun e => e.key == k)

/-- Result of the key-scan loop at the top of `lru_cache_put`
(`while (node) ... node = node->next`). -/
structure put_scan_res where
  bucket : List info
  index : List dll_node
  next_id : Nat
  early : Bool
  found : Bool
deriving DecidableEq

/-- The scan loop of `lru_cache_put`: on a key match the value is
replaced in place; if the entry's back-referenced recency node carries the
same key, that node is unlinked, a fresh copy is appended at the MRU tail,
the back-reference is updated and the function returns `true` (`early`).
Otherwise the loop keeps walking (`found` stays set). -/
def lru_put_scan (k v : String) : List info → List dll_node → Nat → put_scan_res
  | [], idx, fresh => ⟨[], idx, fresh, false, false⟩
  | e :: rest, idx, fresh =>
    if e.key == k then
      match find_node idx e.pointer_to_node with
      | some dn =>
        if dn.key == k then
          ⟨{ key := e.key, value := v, pointer_to_node := fresh } :: rest,
           dll_remove_node idx e.pointer_to_node ++ [⟨fresh, e.key, v⟩],
           fresh + 1, true, true⟩
        else
          let r := lru_put_scan k v rest idx fresh
          ⟨{ e with value := v } :: r.bucket, r.index, r.next_id, r.early, true⟩
      | none =>
        let r := lru_put_scan k v rest idx fresh
        ⟨{ e with value := v } :: r.bucket, r.index, r.next_id, r.early, true⟩
    else
      let r := lru_put_scan k v rest idx fresh
      ⟨e :: r.bucket, r.index, r.next_id, r.early, r.found⟩

/-- Result of `lru_cache_put`: the C return value, the key written through
the `evicted_key` out-parameter (if any), and the cache afterwards. -/
structure put_res where
  ret : Bool
  evicted : Option String
  cache : lru_cache
deriving DecidableEq

/-- `lru_cache_put`.  Scan the key's bucket (early return if the key
exists with an intact back-reference); then, if `size >= capacity`, detach
the head of the recency list, unlink the matching bucket entry and report
the evicted key; finally, if the key was not found, push a new entry at
the bucket front and append a fresh recency node at the MRU tail. -/
def lru_cache_put (hf : String → Nat) (c : lru_cache) (k v : String) : put_res :=
  let bi := hf k % c.capacity
  let s := lru_put_scan k v (c.buckets.getD bi []) c.index c.next_id
  if s.early then
    { ret := true, evicted := none
      cache := { c with buckets := c.buckets.set bi s.bucket, index := s.index, next_id := s.next_id } }
  else
    let c1 : lru_cache :=
      { c with buckets := c.buckets.set bi s.bucket, index := s.index, next_id := s.next_id }
    let ec : lru_cache × Option String :=
      if c1.size ≥ c1.capacity then
        match c1.index with
        | [] => (c1, none)
        | h :: t =>
          let ebi := hf h.key % c1.capacity
          ({ c1 with
              index := t
              buckets := c1.buckets.set ebi (ll_erase_first_key (c1.buckets.getD ebi []) h.key)
              size := c1.size - 1 }, some h.key)
      else (c1, none)
    let c2 := ec.1
    if s.found then { ret := true, evicted := ec.2, cache := c2 }
    else
      let nid := c2.next_id
      { ret := true, evicted := ec.2
        cache := { c2 with
            buckets := c2.buckets.set bi
              (({ key := k, value := v, pointer_to_node := nid } : info) :: c2.buckets.getD bi [])
            index := c2.index ++ [⟨nid, k, v⟩]
            next_id := nid + 1
            size := c2.size + 1 } }

/-- The scan loop of `lru_cache_get`, carrying the already-walked prefix
(`acc`, reversed) the way the C carries `prev`.  On a key match with an
intact back-reference the recency node is moved to the MRU tail and the
bucket entry to the bucket front (`ll_move_to_front`); the value is
returned in every match case. -/
def lru_get_scan (k : String) (idx : List dll_node) (fresh : Nat) (acc : List info) :
    List info → Option String × List info × List dll_node × Nat
  | [] => (none, acc.reverse, idx, fresh)
  | e :: rest =>
    if e.key == k then
      match find_node idx e.pointer_to_node with
      | some dn =>
        if dn.key == k then
          (some e.value,
           { e with pointer_to_node := fresh } :: (acc.reverse ++ rest),
           dll_remove_node idx e.pointer_to_node ++ [⟨fresh, e.key, e.value⟩],
           fresh + 1)
        else (some e.value, acc.reverse ++ e :: rest, idx, fresh)
      | none => (some e.value, acc.reverse ++ e :: rest, idx, fresh)
    else lru_get_scan k idx fresh (e :: acc) rest

/-- Result of `lru_cache_get`: the returned value and the cache (which the
hit path mutates by promoting the entry). -/
structure get_res where
  value : Option String
  cache : lru_cache
deriving DecidableEq

/-- `lru_cache_get`: look the key up in its bucket; a hit promotes the
entry to most recently used and returns its value, a miss returns NULL. -/
def lru_cache_get (hf : String → Nat) (c : lru_cache) (k : String) : get_res :=
  let bi := hf k % c.capacity
  let r := lru_get_scan k c.index c.next_id [] (c.buckets.getD bi [])
  { value := r.1
    cache := { c with buckets := c.buckets.set bi r.2.1, index := r.2.2.1, next_id := r.2.2.2 } }

/-- The scan loop of `lru_cache_remove`: find the first bucket entry with
the key, unlink its recency node and the entry itself; `none` if absent. -/
def lru_remove_scan (k : String) (idx : List dll_node) (acc : List info) :
    List info → Option (List info × List dll_node)
  | [] => none
  | e :: rest =>
    if e.key == k then some (acc.reverse ++ rest, dll_remove_node idx e.pointer_to_node)
    else lru_remove_scan k idx (e :: acc) rest

/-- `lru_cache_remove`: erase the entry from both the bucket chain and the
recency list if present and decrement `size`; no-op if the key is absent. -/
def lru_cache_remove (hf : String → Nat) (c : lru_cache) (k : String) : lru_cache :=
  let bi := hf k % c.capacity
  match lru_remove_scan k c.index [] (c.buckets.getD bi []) with
  | none => c
  | some r =>
    { c with buckets := c.buckets.set bi r.1, index := r.2, size := c.size - 1 }

/-- `lru_cache_is_full`. -/
def lru_cache_is_full (c : lru_cache) : Bool :=
  c.size ≥ c.capacity

/-! ## Server layer (src/server.c)

`struct server` bundles routing data (`server_id`, `hash`,
`original_server`) with storage (`cache`, `local_db`, `task_queue`).  The
storage part is modelled here; the routing fields and the
`original_server` aliasing (a replica's operations all redirect to its
primary's storage) live in the load-balancer model below, which resolves
a ring entry to the primary storage before calling these functions, the
way the C functions do with their `serv->original_server` check.  The
`sid` parameter is the C `serv->server_id` stamped into responses. -/

/-- Modelled from the spec: `request_type` comes from constants.h, which
is not part of src; the spec gives the two request kinds EDIT and GET. -/
inductive request_type where
  | EDIT_DOCUMENT
  | GET_DOCUMENT
deriving DecidableEq

/-- The C `struct request`. -/
structure request where
  type : request_type
  doc_name : String
  doc_content : String
deriving DecidableEq

/-- Modelled from the spec: the log templates (LOG_HIT, LOG_MISS,
LOG_EVICT, LOG_FAULT, LOG_LAZY_EXEC) are format strings in the missing
constants.h; they are modelled as tagged values carrying the formatted
arguments. -/
inductive log_msg where
  | logHit (name : String)
  | logMiss (name : String)
  | logEvict (name evicted : String)
  | logFault (name : String)
  | logLazy (depth : Nat)
deriving DecidableEq

/-- Modelled from the spec: the response-body templates (MSG_A, MSG_B,
MSG_C) are format strings in the missing constants.h; `content` is the
raw document body a GET copies into the response. -/
inductive body_msg where
  | msgA (op name : String)
  | msgB (name : String)
  | msgC (name : String)
  | content (s : String)
deriving DecidableEq

/-- The C `struct response`. -/
structure response where
  server_log : log_msg
  server_response : Option body_msg
  server_id : Nat
deriving DecidableEq

/-- The storage part of the C `struct server`. -/
structure server where
  cache : lru_cache
  local_db : lru_cache
  task_queue : List request
deriving DecidableEq

/-- `MAX_TASK_QUEUE_SIZE` from server.c. -/
def MAX_TASK_QUEUE_SIZE : Nat := 1000

/-- `init_server`: cache of the requested capacity, database 1000 times
larger, empty task queue. -/
def init_server (cache_size : Nat) : server :=
  { cache := init_lru_cache cache_size
    local_db := init_lru_cache (cache_size * 1000)
    task_queue := [] }

/-- `q_enqueue` on the bounded circular buffer: a full queue rejects the
element (returns 0), otherwise the element is copied in at the write
index (returns 1).  The circular buffer is modelled as the FIFO list of
its live elements, oldest first. -/
def q_enqueue (q : List request) (r : request) : Bool × List request :=
  if q.length == MAX_TASK_QUEUE_SIZE then (false, q) else (true, q ++ [r])

/-- `server_edit_document` acting on the effective (primary) storage.
Returns the response and the cache and database afterwards.  The C's
cache-hit branch builds the same HIT/MSG_B response whether or not the
cache put reported an eviction (the put cannot evict on a hit), so the
two arms are written once here. -/
def server_edit_document (hf : String → Nat) (sid : Nat) (cache local_db : lru_cache)
    (doc_name doc_content : String) : response × lru_cache × lru_cache :=
  let g := lru_cache_get hf cache doc_name
  match g.value with
  | none =>
    let gdb := lru_cache_get hf local_db doc_name
    match gdb.value with
    | some _ =>
      let pc := lru_cache_put hf g.cache doc_name doc_content
      let pdb := lru_cache_put hf gdb.cache doc_name doc_content
      match pc.evicted with
      | some ev =>
        ({ server_log := .logEvict doc_name ev, server_response := some (.msgB doc_name),
           server_id := sid }, pc.cache, pdb.cache)
      | none =>
        ({ server_log := .logMiss doc_name, server_response := some (.msgB doc_name),
           server_id := sid }, pc.cache, pdb.cache)
    | none =>
      let pdb := lru_cache_put hf gdb.cache doc_name doc_content
      let pc := lru_cache_put hf g.cache doc_name doc_content
      match pc.evicted with
      | some ev =>
        ({ server_log := .logEvict doc_name ev, server_response := some (.msgC doc_name),
           server_id := sid }, pc.cache, pdb.cache)
      | none =>
        ({ server_log := .logMiss doc_name, server_response := some (.msgC doc_name),
           server_id := sid }, pc.cache, pdb.cache)
  | some _ =>
    let pc := lru_cache_put hf g.cache doc_name doc_content
    let pdb := lru_cache_put hf local_db doc_name doc_content
    ({ server_log := .logHit doc_name, server_response := some (.msgB doc_name),
       server_id := sid }, pc.cache, pdb.cache)

/-- `server_get_document` acting on the effective storage. -/
def server_get_document (hf : String → Nat) (sid : Nat) (cache local_db : lru_cache)
    (doc_name : String) : response × lru_cache × lru_cache :=
  let g := lru_cache_get hf cache doc_name
  match g.value with
  | none =>
    let gdb := lru_cache_get hf local_db doc_name
    match gdb.value with
    | some reply =>
      let pc := lru_cache_put hf g.cache doc_name reply
      match pc.evicted with
      | some ev =>
        ({ server_log := .logEvict doc_name ev, server_response := some (.content reply),
           server_id := sid }, pc.cache, gdb.cache)
      | none =>
        ({ server_log := .logMiss doc_name, server_response := some (.content reply),
           server_id := sid }, pc.cache, gdb.cache)
    | none =>
      ({ server_log := .logFault doc_name, server_response := none,
         server_id := sid }, g.cache, gdb.cache)
  | some document =>
    ({ server_log := .logHit doc_name, server_response := some (.content document),
       server_id := sid }, g.cache, local_db)

/-- The dequeue-and-apply loop of `execute_edit_tasks_for_document`: pop
the front request, apply the edit, collect the response that
PRINT_RESPONSE emits, repeat until the queue is empty. -/
def execute_edit_tasks (hf : String → Nat) (sid : Nat) :
    List request → lru_cache → lru_cache → List response × lru_cache × lru_cache
  | [], c, d => ([], c, d)
  | req :: rest, c, d =>
    let e := server_edit_document hf sid c d req.doc_name req.doc_content
    let r := execute_edit_tasks hf sid rest e.2.1 e.2.2
    (e.1 :: r.1, r.2)

/-- `execute_edit_tasks_for_document` on the effective storage: drains the
task queue, returning the responses printed along the way. -/
def execute_edit_tasks_for_document (hf : String → Nat) (sid : Nat) (s : server) :
    List response × server :=
  let r := execute_edit_tasks hf sid s.task_queue s.cache s.local_db
  (r.1, { cache := r.2.1, local_db := r.2.2, task_queue := [] })

/-- `server_handle_request` on the effective storage.  EDIT enqueues the
request (a full queue drops it) and answers with the lazy-execution
response quoting the queue depth after the enqueue attempt; GET first
drains the task queue (the drained edits' responses are printed — first
component) and then performs the read. -/
def server_handle_request (hf : String → Nat) (sid : Nat) (s : server) (req : request) :
    List response × response × server :=
  match req.type with
  | .EDIT_DOCUMENT =>
    let q := (q_enqueue s.task_queue req).2
    ([], { server_log := .logLazy q.length, server_response := some (.msgA "EDIT" req.doc_name),
           server_id := sid },
     { s with task_queue := q })
  | .GET_DOCUMENT =>
    let f := execute_edit_tasks_for_document hf sid s
    let g := server_get_document hf sid f.2.cache f.2.local_db req.doc_name
    (f.1, g.1, { f.2 with cache := g.2.1, local_db := g.2.2 })

/-! ## Load balancer (src/load_balancer.c)

The ring is the `servers` array: routing records sorted by hash.  The C
replica records carry an `original_server` pointer to their primary and
every data access redirects through it, so the aliased storage is
modelled as a side table `store` mapping a primary's id to the single
`server` storage its whole family shares (replica records also own a
private storage in the C, but no code path ever reads it, every access
being redirected first).  `hash_uint`/`hash_string` are declared in
utils.h without a definition in src; they are passed as parameters
`hu`/`hs`.  `max_servers` and the `realloc` growing/shrinking of the
array only manage capacity of the C vector and are not observable, so
the model uses plain lists. -/

/-- The routing part of a C `struct server` as it sits in the ring:
`server_id`, ring `hash`, and (for a replica) the id of the primary its
`original_server` pointer designates. -/
structure ring_entry where
  server_id : Nat
  hash : Nat
  original_server : Option Nat
deriving DecidableEq

/-- The primary family of a ring entry: `server_id % 100000`. -/
def fam (e : ring_entry) : Nat := e.server_id % 100000

/-- The storage a ring entry's data accesses reach after the
`original_server` redirection: the primary's id. -/
def eff_id (e : ring_entry) : Nat :=
  match e.original_server with
  | some p => p
  | none => e.server_id

/-- The C `struct load_balancer` together with the family storage table. -/
structure load_balancer where
  servers : List ring_entry
  enable_vnodes : Bool
  store : List (Nat × server)
deriving DecidableEq

/-- Fetch a family's storage from the side table (the C just follows the
pointer; the default is never reached in any modelled run). -/
def store_get (st : List (Nat × server)) (k : Nat) : server :=
  match st.find? (fun p => p.1 == k) with
  | some p => p.2
  | none => init_server 0

/-- Write a family's storage back. -/
def store_set (st : List (Nat × server)) (k : Nat) (s : server) : List (Nat × server) :=
  st.map (fun p => if p.1 == k then (k, s) else p)

/-- Drop a family's storage (the primary's `free_server`). -/
def store_del (st : List (Nat × server)) (k : Nat) : List (Nat × server) :=
  st.filter (fun p => p.1 != k)

/-- `get_all_keys`: every key of the server's database, walking bucket 0
upward and each chain head first (the C allocates `local_db->size` slots;
under the cache invariant that is exactly the number of entries). -/
def get_all_keys (s : server) : List String :=
  (cache_entries s.local_db).map info.key

/-- The loop of `get_insert_poz`, carrying `i` and `prev_hash`. -/
def get_insert_poz_loop : List ring_entry → Nat → Nat → Nat → Nat → Option Nat
  | [], _, _, _, _ => none
  | e :: rest, i, prev_hash, shash, sid =>
    if e.hash > shash ∧ prev_hash < shash then some i
    else if e.hash == shash then
      if e.server_id < sid then some i else some (i + 1)
    else get_insert_poz_loop rest (i + 1) e.hash shash sid

/-- `get_insert_poz`: position at which a server of hash `shash` and id
`sid` is inserted in the ring, `none` for the C's `-1` (place at the
end).  The C reads `servers[nr_servers - 1]` first; it is never called on
an empty ring. -/
def get_insert_poz (servers : List ring_entry) (shash sid : Nat) : Option Nat :=
  match servers.getLast? with
  | none => none
  | some last =>
    if last.hash < shash then none
    else if last.hash == shash then
      if last.server_id < sid then none else some (servers.length - 1)
    else get_insert_poz_loop servers 0 0 shash sid

/-- The ring placement performed by `insert_server`: shift-insert at
`get_insert_poz`, or append when it reports the end. -/
def ring_insert (servers : List ring_entry) (s : ring_entry) : List ring_entry :=
  match get_insert_poz servers s.hash s.server_id with
  | none => servers ++ [s]
  | some p => servers.insertIdx p s

/-- `find_server_index`. -/
def find_server_index (servers : List ring_entry) (sid : Nat) : Option Nat :=
  servers.findIdx? (fun e => e.server_id == sid)

/-- `find_next_server`: walk `(current_index + 1) % n`, `... + 2`, …
until wrapping back to `current_index`, returning the first entry of a
different primary family.  `n` is passed explicitly because
`insert_server` calls this while `nr_servers` still excludes the freshly
shifted-in entry. -/
def find_next_server (servers : List ring_entry) (n current_index : Nat) : Option ring_entry :=
  match servers.get? current_index with
  | none => none
  | some cur =>
    (List.range (n - 1)).findSome? (fun k =>
      match servers.get? ((current_index + 1 + k) % n) with
      | some e => if fam e ≠ fam cur then some e else none
      | none => none)

/-- `should_redistribute`: `pos` is `none` for the C's `-1`. -/
def should_redistribute (new_server next_server : ring_entry) (pos : Option Nat)
    (h : Nat) : Bool :=
  match pos with
  | some 0 => h > next_server.hash || h ≤ new_server.hash
  | some _ => h ≤ new_server.hash
  | none => h > next_server.hash && h ≤ new_server.hash

/-- One iteration of the `redistribute_keys` loop for key `k`: compute
the key's would-be owner `serv` over the visible portion of the ring
(`scan`, i.e. `servers[0 .. nr_servers-1]` at that moment), test
`should_redistribute`, and when the key moves: read its value from the
donor's effective database, put it into the recipient's effective
database, then remove it from the donor's effective cache and database.
The C compares `serv == next_s` by pointer; ring entries are identified
by their (unique) `server_id`.  A NULL value from the donor get cannot
occur for a key reported by `get_all_keys`. -/
def redistribute_one (scan : List ring_entry) (enable_vnodes : Bool)
    (new_s next_s : ring_entry) (poz : Option Nat) (hs : String → Nat)
    (st : List (Nat × server)) (k : String) : List (Nat × server) :=
  let h := hs k
  let serv : Option ring_entry :=
    match scan.getLast? with
    | none => none
    | some last =>
      if h ≥ last.hash ∧ fam last ≠ fam new_s then scan.head?
      else scan.find? (fun e => h ≤ e.hash && fam e != fam new_s)
  let ok := should_redistribute new_s next_s poz h
  if (ok && !enable_vnodes) ||
     (ok && enable_vnodes && serv.any (fun e => e.server_id == next_s.server_id)) then
    let next := store_get st (eff_id next_s)
    let gv := lru_cache_get hs next.local_db k
    let st := store_set st (eff_id next_s) { next with local_db := gv.cache }
    let nw := store_get st (eff_id new_s)
    let st := store_set st (eff_id new_s)
      { nw with local_db := (lru_cache_put hs nw.local_db k (gv.value.getD "")).cache }
    let next2 := store_get st (eff_id next_s)
    let st := store_set st (eff_id next_s)
      { next2 with cache := lru_cache_remove hs next2.cache k }
    let next3 := store_get st (eff_id next_s)
    store_set st (eff_id next_s)
      { next3 with local_db := lru_cache_remove hs next3.local_db k }
  else st

/-- `redistribute_keys`: iterate the snapshot `key_list` (the C bound
`nr_keys` is the donor database's size when the list was taken, which is
the list's length). -/
def redistribute_keys (scan : List ring_entry) (enable_vnodes : Bool)
    (st : List (Nat × server)) (key_list : List String)
    (new_s next_s : ring_entry) (poz : Option Nat) (hs : String → Nat) :
    List (Nat × server) :=
  key_list.foldl (redistribute_one scan enable_vnodes new_s next_s poz hs) st

/-- Flush the effective storage of ring entry `e` (the
`execute_edit_tasks_for_document(serv)` calls of load_balancer.c; the
printed responses go to stdout and are dropped here). -/
def flush_entry (hs : String → Nat) (st : List (Nat × server)) (e : ring_entry) :
    List (Nat × server) :=
  let s := store_get st (eff_id e)
  store_set st (eff_id e) (execute_edit_tasks_for_document hs e.server_id s).2

/-- `insert_server`.  The new record is first placed in the ring (write
to `servers[nr_servers]` or shift-insert), while `nr_servers` is only
incremented at the very end; every scan inside therefore sees the ring
portion `servers'.dropLast` (for the append case that is the old ring,
for the shifted case the shifted ring without its last slot).  Then the
donor — the successor `servers[poz + 1]` without virtual nodes, the first
ring entry of a foreign family (`find_next_server`) with them — is
flushed, its effective keys are listed and redistributed. -/
def insert_server (lb : load_balancer) (s : ring_entry) (hs : String → Nat) :
    load_balancer :=
  let poz := get_insert_poz lb.servers s.hash s.server_id
  match poz with
  | none =>
    let servers' := lb.servers ++ [s]
    if !lb.enable_vnodes then
      match lb.servers.head? with
      | none => { lb with servers := servers' }
      | some s0 =>
        let st1 := flush_entry hs lb.store s0
        let key_list := get_all_keys (store_get st1 (eff_id s0))
        let st2 := redistribute_keys lb.servers lb.enable_vnodes st1 key_list s s0 none hs
        { lb with servers := servers', store := st2 }
    else
      match lb.servers.find? (fun e => fam e != fam s) with
      | none => { lb with servers := servers' }
      | some ns =>
        let st1 := flush_entry hs lb.store ns
        let key_list := get_all_keys (store_get st1 (eff_id ns))
        let st2 := redistribute_keys lb.servers lb.enable_vnodes st1 key_list s ns none hs
        { lb with servers := servers', store := st2 }
  | some p =>
    let servers' := lb.servers.insertIdx p s
    let scan := servers'.dropLast
    if !lb.enable_vnodes then
      match servers'.get? (p + 1) with
      | none => { lb with servers := servers' }
      | some donor =>
        let st1 := flush_entry hs lb.store donor
        let key_list := get_all_keys (store_get st1 (eff_id donor))
        let st2 := redistribute_keys scan lb.enable_vnodes st1 key_list s donor (some p) hs
        { lb with servers := servers', store := st2 }
    else
      match find_next_server servers' lb.servers.length p with
      | none => { lb with servers := servers' }
      | some ns =>
        let st1 := flush_entry hs lb.store ns
        let key_list := get_all_keys (store_get st1 (eff_id ns))
        let st2 := redistribute_keys scan lb.enable_vnodes st1 key_list s ns (some p) hs
        { lb with servers := servers', store := st2 }

/-- `loader_add_server`: create the primary record (and with virtual
nodes the two replica records at ids `+100000` and `+200000` redirecting
to it), allocate its storage, and insert the records into the ring. -/
def loader_add_server (lb : load_balancer) (id cache_size : Nat)
    (hu : Nat → Nat) (hs : String → Nat) : load_balancer :=
  let s : ring_entry := { server_id := id, hash := hu id, original_server := none }
  let c1 : ring_entry :=
    { server_id := id + 100000, hash := hu (id + 100000), original_server := some id }
  let c2 : ring_entry :=
    { server_id := id + 2 * 100000, hash := hu (id + 2 * 100000), original_server := some id }
  let lb0 : load_balancer := { lb with store := lb.store ++ [(id, init_server cache_size)] }
  if lb.servers.length == 0 then
    if lb.enable_vnodes then
      insert_server (insert_server { lb0 with servers := [s] } c1 hs) c2 hs
    else { lb0 with servers := [s] }
  else
    if lb.enable_vnodes then
      insert_server (insert_server (insert_server lb0 s hs) c1 hs) c2 hs
    else insert_server lb0 s hs

/-- The copy loop `remove_replicas` runs for each replica of the departing
family: every key of the departing primary's database is read (the get
promotes it) and put into the replica's successor's effective database —
without being removed from anywhere. -/
def remove_replicas_copy (hs : String → Nat) (st : List (Nat × server))
    (prim_id : Nat) (ns : ring_entry) : List (Nat × server) :=
  let tgt := store_get st prim_id
  (get_all_keys tgt).foldl (fun st k =>
    let tgt := store_get st prim_id
    let gv := lru_cache_get hs tgt.local_db k
    let st := store_set st prim_id { tgt with local_db := gv.cache }
    let nsrv := store_get st (eff_id ns)
    store_set st (eff_id ns)
      { nsrv with local_db := (lru_cache_put hs nsrv.local_db k (gv.value.getD "")).cache }) st

/-- The final loop of `remove_replicas`: `for (j = 0; j < target->local_db
->size; j++)` while the body removes key `j` from that same database, so
the bound shrinks as `j` grows.  `fuel` (the snapshot length plus one)
only bounds the recursion; the loop itself stops when `j` reaches the
current size. -/
def remove_replicas_final (hs : String → Nat) (prim_id nsk : Nat) (keys : List String) :
    Nat → Nat → List (Nat × server) → List (Nat × server)
  | 0, _, st => st
  | fuel + 1, j, st =>
    let tgt := store_get st prim_id
    if j < tgt.local_db.size then
      match keys.get? j with
      | none => st
      | some k =>
        let gv := lru_cache_get hs tgt.local_db k
        let st := store_set st prim_id { tgt with local_db := gv.cache }
        let nsrv := store_get st nsk
        let st := store_set st nsk
          { nsrv with local_db := (lru_cache_put hs nsrv.local_db k (gv.value.getD "")).cache }
        let tgt2 := store_get st prim_id
        let st := store_set st prim_id
          { tgt2 with local_db := lru_cache_remove hs tgt2.local_db k }
        remove_replicas_final hs prim_id nsk keys fuel (j + 1) st
    else st

/-- `remove_replicas`: locate the departing primary; for each of its two
replica ids, copy the primary's whole database into that replica's
successor's effective database; then copy it once more into the primary's
own successor's effective database, this time removing the copied keys
from the primary. -/
def remove_replicas (lb : load_balancer) (server_id : Nat) (hs : String → Nat) :
    load_balancer :=
  match find_server_index lb.servers (server_id % 100000) with
  | none => lb
  | some idx =>
    let sid := server_id % 100000
    let step (st : List (Nat × server)) (i : Nat) : List (Nat × server) :=
      match find_server_index lb.servers (sid + i * 100000) with
      | none => st
      | some ridx =>
        match find_next_server lb.servers lb.servers.length ridx with
        | none => st
        | some ns => remove_replicas_copy hs st sid ns
    let st1 := step lb.store 1
    let st2 := step st1 2
    match find_next_server lb.servers lb.servers.length idx with
    | none => { lb with store := st2 }
    | some ns =>
      let keys := get_all_keys (store_get st2 sid)
      { lb with store := remove_replicas_final hs sid (eff_id ns) keys (keys.length + 1) 0 st2 }

/-- The body of one match in the `loader_remove_server` scan: perform the
migration this entry triggers (virtual nodes: only once per call, and only
when the matched entry is a replica — `remove_replicas` via its primary,
flushed first; without virtual nodes: flush the server and copy every key
of its database to its ring successor), then free the record. -/
def loader_remove_match (lb : load_balancer) (e : ring_entry) (i : Nat) (okFlag : Bool)
    (hs : String → Nat) : load_balancer :=
  let next_s := if i == lb.servers.length - 1 then lb.servers.get? 0 else lb.servers.get? (i + 1)
  if lb.enable_vnodes && !okFlag then
    match e.original_server with
    | some p =>
      let st1 := flush_entry hs lb.store { e with server_id := p, original_server := none }
      remove_replicas { lb with store := st1 } p hs
    | none => lb
  else if !lb.enable_vnodes then
    let st1 := flush_entry hs lb.store e
    match next_s with
    | none => { lb with store := st1 }
    | some nxt =>
      let keys := get_all_keys (store_get st1 (eff_id e))
      let st2 := keys.foldl (fun st k =>
        let tgt := store_get st (eff_id e)
        let gv := lru_cache_get hs tgt.local_db k
        let st := store_set st (eff_id e) { tgt with local_db := gv.cache }
        let nsrv := store_get st nxt.server_id
        store_set st nxt.server_id
          { nsrv with local_db := (lru_cache_put hs nsrv.local_db k (gv.value.getD "")).cache }) st1
      { lb with store := st2 }
  else lb

/-- The `loader_remove_server` scan with its `i--` after each removal: on
a family match, migrate (`loader_remove_match`), free the record (a
primary's storage goes with it), erase the ring slot and retry the same
index; otherwise advance.  Each step either removes a slot or advances
`i`, so `initial length + 1` fuel always suffices. -/
def loader_remove_loop (sid : Nat) (hs : String → Nat) :
    Nat → Nat → Bool → load_balancer → load_balancer
  | 0, _, _, lb => lb
  | fuel + 1, i, okFlag, lb =>
    match lb.servers.get? i with
    | none => lb
    | some e =>
      if fam e == sid then
        let lb1 := loader_remove_match lb e i okFlag hs
        let store' :=
          match e.original_server with
          | none => store_del lb1.store e.server_id
          | some _ => lb1.store
        loader_remove_loop sid hs fuel i true
          { lb1 with servers := lb1.servers.eraseIdx i, store := store' }
      else loader_remove_loop sid hs fuel (i + 1) okFlag lb

/-- `loader_remove_server` (the trailing `realloc` shrink only resizes
the C vector). -/
def loader_remove_server (lb : load_balancer) (server_id : Nat) (hs : String → Nat) :
    load_balancer :=
  loader_remove_loop server_id hs (lb.servers.length + 1) 0 false lb

/-- The routing step of `loader_forward_request`: if the document hash
strictly exceeds the last ring entry's hash, take entry 0; otherwise take
the first entry whose hash strictly exceeds it.  When neither applies the
C never assigns `target_server` and dereferences an uninitialized
pointer; that fall-through is `none` here.  An empty ring reads
`servers[-1]` (also undefined, also `none`). -/
def forward_target (servers : List ring_entry) (h : Nat) : Option ring_entry :=
  match servers.getLast? with
  | none => none
  | some last =>
    if h > last.hash then servers.head?
    else servers.find? (fun e => h < e.hash)

/-- `loader_forward_request`: route by the document-name hash; for a GET
under virtual nodes, re-resolve to the first family member whose id-hash
strictly exceeds the document hash; hand the request to the chosen
entry's effective storage.  Returns the responses printed while the GET
drained the queue, the response, and the balancer afterwards (`none`
when the routing fell through to the uninitialized pointer). -/
def loader_forward_request (lb : load_balancer) (req : request)
    (hs : String → Nat) (hu : Nat → Nat) :
    Option (List response × response) × load_balancer :=
  let h := hs req.doc_name
  let target0 := forward_target lb.servers h
  let target : Option ring_entry :=
    match target0 with
    | none => none
    | some t =>
      if req.type == .GET_DOCUMENT && lb.enable_vnodes then
        match lb.servers.find? (fun e => fam e == fam t && h < hu e.server_id) with
        | some e => some e
        | none => some t
      else some t
  match target with
  | none => (none, lb)
  | some t =>
    let s := store_get lb.store (eff_id t)
    let r := server_handle_request hs t.server_id s req
    (some (r.1, r.2.1), { lb with store := store_set lb.store (eff_id t) r.2.2 })

/-- `init_load_balancer`. -/
def init_load_balancer (enable_vnodes : Bool) : load_balancer :=
  { servers := [], enable_vnodes := enable_vnodes, store := [] }

/-! ## Invariants and specification-side definitions -/

/-- The keys stored in the bucket chains, in traversal order. -/
def bucket_keys (c : lru_cache) : List String :=
  (cache_entries c).map info.key

/-- The keys on the recency list, LRU first. -/
def index_keys (c : lru_cache) : List String :=
  c.index.map dll_node.key

/-- The representation invariant of the C cache: positive capacity with
that many buckets, `size` counting the recency list, `size ≤ capacity`,
the bucket entries and the recency nodes in bijection (their key lists
are permutations and duplicate-free), node identities distinct and below
the allocation counter, every entry's back-reference reaching a node of
its own key, and every entry sitting in the bucket its hash selects. -/
def cache_inv (hf : String → Nat) (c : lru_cache) : Prop :=
  0 < c.capacity ∧
  c.buckets.length = c.capacity ∧
  c.index.length = c.size ∧
  c.size ≤ c.capacity ∧
  (bucket_keys c).Perm (index_keys c) ∧
  (index_keys c).Nodup ∧
  (c.index.map dll_node.nid).Nodup ∧
  (∀ n ∈ c.index, n.nid < c.next_id) ∧
  (∀ e ∈ cache_entries c, ∃ n ∈ c.index, n.nid = e.pointer_to_node ∧ n.key = e.key) ∧
  (∀ i ∈ List.range c.buckets.length, ∀ e ∈ c.buckets.getD i [], hf e.key % c.capacity = i)

/-- An operation of the public cache interface, for stating properties of
arbitrary operation sequences. -/
inductive cache_op where
  | putOp (k v : String)
  | getOp (k : String)
  | removeOp (k : String)
deriving DecidableEq

/-- Run a sequence of cache operations left to right. -/
def apply_cache_ops (hf : String → Nat) : List cache_op → lru_cache → lru_cache
  | [], c => c
  | op :: rest, c =>
    apply_cache_ops hf rest
      (match op with
       | .putOp k v => (lru_cache_put hf c k v).cache
       | .getOp k => (lru_cache_get hf c k).cache
       | .removeOp k => lru_cache_remove hf c k)

/-- Modelled from the spec: "drain the task queue by applying each queued
edit in FIFO order" — the storage after folding `apply_edit` over the
queued requests front to back, written as a direct fold for comparison
with the dequeue loop of the source. -/
def apply_edits_spec (hf : String → Nat) (sid : Nat) (reqs : List request)
    (cd : lru_cache × lru_cache) : lru_cache × lru_cache :=
  reqs.foldl (fun cd r =>
    let e := server_edit_document hf sid cd.1 cd.2 r.doc_name r.doc_content
    (e.2.1, e.2.2)) cd

/-- Modelled from the spec: "printing each edit's response as a side
effect" — the responses of the queued edits, one per request, in FIFO
order, each computed on the storage left by the previous edits. -/
def edit_responses_spec (hf : String → Nat) (sid : Nat) (reqs : List request)
    (cd : lru_cache × lru_cache) : List response :=
  (reqs.foldl (fun acc r =>
    let e := server_edit_document hf sid acc.2.1 acc.2.2 r.doc_name r.doc_content
    (acc.1 ++ [e.1], e.2.1, e.2.2)) ([], cd)).1

/-- The ring order claimed by the specification: hash ascending, ties
broken by server id ascending. -/
def ring_sorted (servers : List ring_entry) : Prop :=
  servers.Pairwise (fun a b => a.hash < b.hash ∨ (a.hash = b.hash ∧ a.server_id < b.server_id))

/-! ## Concrete instantiations for the executable scenarios

`hash_uint` and `hash_string` are not part of src (only their utils.h
declarations are) and the spec leaves their identity unspecified, so the
scenarios below fix concrete admissible instances realising particular
ring layouts and document hashes. -/

/-- Modelled from the spec: a concrete `hash_string`/bucket hash used by
the witnesses. -/
def hash_w : String → Nat := fun s => s.length + (s.get? 0).elim 0 Char.toNat

/-- Modelled from the spec: `hash_uint` instance for the routing
fall-through scenario — the single server's ring hash is 50. -/
def hu_c1 : Nat → Nat
  | 1 => 50
  | n => n

/-- Modelled from the spec: `hash_string` instance hashing document "d"
to 50, equal to the only ring hash. -/
def hs_c1 : String → Nat
  | "d" => 50
  | s => s.length

/-- The balancer of the C1 scenario: one server, id 1, ring hash 50. -/
def lb_c1 : load_balancer := loader_add_server (init_load_balancer false) 1 1 hu_c1 hs_c1

/-- Modelled from the spec: `hash_uint` instance for the removal
scenario — servers 1 and 2 sit at ring hashes 10 and 50. -/
def hu_c4 : Nat → Nat
  | 1 => 10
  | 2 => 50
  | n => n

/-- Modelled from the spec: `hash_string` instance hashing document "d"
to 10, equal to the surviving server's ring hash. -/
def hs_c4 : String → Nat
  | "d" => 10
  | s => s.length

/-- C4 scenario before the removal: two servers, document "d" edited
(the edit pending on server 2's task queue). -/
def lb_c4_before : load_balancer :=
  (loader_forward_request
    (loader_add_server (loader_add_server (init_load_balancer false) 1 1 hu_c4 hs_c4)
      2 1 hu_c4 hs_c4)
    ⟨.EDIT_DOCUMENT, "d", "v"⟩ hs_c4 hu_c4).2

/-- C4 scenario after `loader_remove_server(2)`. -/
def lb_c4_after : load_balancer := loader_remove_server lb_c4_before 2 hs_c4

/-- Modelled from the spec: `hash_uint` instance for the virtual-node
removal scenario, laying three families out as
(10,100001) (20,2) (25,3) (30,200001) (35,100003) (40,100002)
(50,1) (60,200002) (65,200003). -/
def hu_c3 : Nat → Nat
  | 1 => 50
  | 100001 => 10
  | 200001 => 30
  | 2 => 20
  | 100002 => 40
  | 200002 => 60
  | 3 => 25
  | 100003 => 35
  | 200003 => 65
  | n => n

/-- Modelled from the spec: `hash_string` instance hashing document "d"
to 48, owned by family 1. -/
def hs_c3 : String → Nat
  | "d" => 48
  | s => s.length

/-- C3 scenario before the removal: three families with virtual nodes,
document "d" edited (pending on family 1's queue). -/
def lb_c3_before : load_balancer :=
  (loader_forward_request
    (loader_add_server
      (loader_add_server
        (loader_add_server (init_load_balancer true) 1 1 hu_c3 hs_c3)
        2 1 hu_c3 hs_c3)
      3 1 hu_c3 hs_c3)
    ⟨.EDIT_DOCUMENT, "d", "v"⟩ hs_c3 hu_c3).2

/-- C3 scenario after `loader_remove_server(1)`. -/
def lb_c3_after : load_balancer := loader_remove_server lb_c3_before 1 hs_c3

/-- Modelled from the spec: `hash_uint` instance with a hash collision
(ids 0 and 1 both hash to 5) and a zero hash (id 3). -/
def hu_c8 : Nat → Nat
  | 1 => 5
  | 2 => 7
  | 0 => 5
  | 3 => 0
  | n => n

/-- Modelled from the spec: any `hash_string` works for the ring-order
scenario. -/
def hs_c8 : String → Nat := fun s => s.length

/-- C8 tie scenario: add servers 1, 2, then 0 (hash 5 collides with
server 1's hash). -/
def lb_c8_tie : load_balancer :=
  loader_add_server
    (loader_add_server (loader_add_server (init_load_balancer false) 1 1 hu_c8 hs_c8)
      2 1 hu_c8 hs_c8)
    0 1 hu_c8 hs_c8

/-- C8 zero-hash scenario: add server 1 (hash 5), then server 3 (hash 0). -/
def lb_c8_zero : load_balancer :=
  loader_add_server (loader_add_server (init_load_balancer false) 1 1 hu_c8 hs_c8)
    3 1 hu_c8 hs_c8

/-- A concrete full cache (capacity 2 holding "A" and "B") for the
eviction witness. -/
def cache_w_full : lru_cache :=
  (lru_cache_put hash_w (lru_cache_put hash_w (init_lru_cache 2) "A" "1").cache "B" "2").cache

/-- A concrete cache holding one key, for the existing-key scenario. -/
def cache_w_one : lru_cache :=
  (lru_cache_put hash_w (init_lru_cache 2) "A" "1").cache

/-- A concrete server whose task queue is full (1000 pending edits). -/
def server_w_full_queue : server :=
  { cache := init_lru_cache 2
    local_db := init_lru_cache 2000
    task_queue := List.replicate MAX_TASK_QUEUE_SIZE ⟨.EDIT_DOCUMENT, "q", "w"⟩ }

/-! ## Supporting lemmas -/

theorem list_set_getD_self {α : Type} (l : List α) (i : Nat) (d : α) :
    l.set i (l.getD i d) = l := by
  induction l generalizing i with
  | nil => simp
  | cons a t ih =>
    cases i with
    | zero => simp
    | succ n => simpa using ih n

theorem perm_middle_exp {α : Type} (a : α) (l1 l2 : List α) :
    (l1 ++ a :: l2).Perm (a :: (l1 ++ l2)) := List.perm_middle

theorem mem_bucket_mem_entries {c : lru_cache} {i : Nat} {e : info}
    (he : e ∈ c.buckets.getD i []) : e ∈ cache_entries c := by
  rcases Nat.lt_or_ge i c.buckets.length with h | h
  · refine List.mem_flatten.mpr ⟨c.buckets.getD i [], ?_, he⟩
    rw [List.getD_eq_getElem c.buckets [] h]
    exact List.getElem_mem h
  · rw [List.getD_eq_default _ _ h] at he
    simp at he

theorem key_mem_bucket_keys {c : lru_cache} {i : Nat} {k : String}
    (hk : k ∈ (c.buckets.getD i []).map info.key) : k ∈ bucket_keys c := by
  obtain ⟨e, he, hek⟩ := List.mem_map.mp hk
  exact List.mem_map.mpr ⟨e, mem_bucket_mem_entries he, hek⟩

theorem lru_put_scan_absent (k v : String) (b : List info) (idx : List dll_node) (fresh : Nat)
    (h : k ∉ b.map info.key) :
    lru_put_scan k v b idx fresh = ⟨b, idx, fresh, false, false⟩ := by
  induction b with
  | nil => rfl
  | cons e rest ih =>
    simp only [List.map_cons, List.mem_cons] at h
    push_neg at h
    have hek : (e.key == k) = false := by
      simp only [beq_eq_false_iff_ne, ne_eq]
      exact fun hx => h.1 hx.symm
    simp only [lru_put_scan, hek, Bool.false_eq_true, if_false, ih h.2]

theorem lru_get_scan_absent (k : String) (idx : List dll_node) (fresh : Nat)
    (acc b : List info) (h : k ∉ b.map info.key) :
    lru_get_scan k idx fresh acc b = (none, acc.reverse ++ b, idx, fresh) := by
  induction b generalizing acc with
  | nil => simp [lru_get_scan]
  | cons e rest ih =>
    simp only [List.map_cons, List.mem_cons] at h
    push_neg at h
    have hek : (e.key == k) = false := by
      simp only [beq_eq_false_iff_ne, ne_eq]
      exact fun hx => h.1 hx.symm
    rw [lru_get_scan, if_neg (by simp [hek]), ih (e :: acc) h.2]
    simp

/-! ## Claims -/

/-- C10: `lru_cache_get` on an absent key returns NULL and leaves the
cache — buckets, recency list, size, everything — exactly as it was. -/
theorem C10_get_absent_frame (hf : String → Nat) (c : lru_cache) (k : String)
    (habs : k ∉ bucket_keys c) :
    (lru_cache_get hf c k).value = none ∧ (lru_cache_get hf c k).cache = c := by
  have hb : k ∉ (c.buckets.getD (hf k % c.capacity) []).map info.key :=
    fun hm => habs (key_mem_bucket_keys hm)
  simp only [lru_cache_get]
  rw [lru_get_scan_absent _ _ _ _ _ hb]
  refine ⟨rfl, ?_⟩
  simp only [List.reverse_nil, List.nil_append, list_set_getD_self]

/-- Witness for C10 at a concrete cache and key. -/
theorem C10_get_absent_frame_witness :
    (lru_cache_get hash_w cache_w_full "Z").value = none ∧
    (lru_cache_get hash_w cache_w_full "Z").cache = cache_w_full :=
  C10_get_absent_frame hash_w cache_w_full "Z" (by decide)

/-- C5: a put of an absent key into a cache at capacity evicts exactly
the head of the recency list (the LRU entry), hands its key out through
the `evicted_key` parameter, appends the new key at the MRU tail, and
leaves the size equal to the capacity. -/
theorem C5_full_put_evicts_lru (hf : String → Nat) (c : lru_cache) (k v : String)
    (hinv : cache_inv hf c) (hfull : c.size = c.capacity) (habs : k ∉ bucket_keys c) :
    ∃ h t, c.index = h :: t ∧
      (lru_cache_put hf c k v).evicted = some h.key ∧
      index_keys (lru_cache_put hf c k v).cache = t.map dll_node.key ++ [k] ∧
      (lru_cache_put hf c k v).cache.size = c.capacity ∧
      (lru_cache_put hf c k v).ret = true := by
  obtain ⟨hcap, hblen, hilen, hsz, hperm, hnd, hnid, hbound, hback, hplace⟩ := hinv
  have hpos : 0 < c.index.length := by rw [hilen, hfull]; exact hcap
  obtain ⟨h, t, hht⟩ : ∃ h t, c.index = h :: t := by
    cases hx : c.index with
    | nil => rw [hx] at hpos; simp at hpos
    | cons a b => exact ⟨a, b, rfl⟩
  have hb : k ∉ (c.buckets.getD (hf k % c.capacity) []).map info.key :=
    fun hm => habs (key_mem_bucket_keys hm)
  have hsize1 : 1 ≤ c.size := by omega
  refine ⟨h, t, hht, ?_, ?_, ?_, ?_⟩ <;>
  · simp only [lru_cache_put]
    rw [lru_put_scan_absent _ _ _ _ _ hb]
    simp only [list_set_getD_self, hht, hfull, ge_iff_le, le_refl, if_true, index_keys]
    simp [hfull, hsize1]
    try omega

/-- Witness for C5 at a concrete full cache. -/
theorem C5_full_put_evicts_lru_witness :
    ∃ h t, cache_w_full.index = h :: t ∧
      (lru_cache_put hash_w cache_w_full "C" "3").evicted = some h.key ∧
      index_keys (lru_cache_put hash_w cache_w_full "C" "3").cache =
        t.map dll_node.key ++ ["C"] ∧
      (lru_cache_put hash_w cache_w_full "C" "3").cache.size = cache_w_full.capacity ∧
      (lru_cache_put hash_w cache_w_full "C" "3").ret = true :=
  C5_full_put_evicts_lru hash_w cache_w_full "C" "3" (by unfold cache_inv; decide)
    (by decide) (by decide)

/-- C6: at the concrete failing input — a put of a key that is already
present — the update, MRU promotion, absence of eviction and unchanged
size all happen as claimed, but `lru_cache_put` returns `true`, where its
own header documentation (and the claim) require `false` for an existing
key. -/
theorem C6_put_existing_returns_true :
    (lru_cache_put hash_w cache_w_full "A" "9").ret = true ∧
    (lru_cache_put hash_w cache_w_full "A" "9").evicted = none ∧
    (lru_cache_put hash_w cache_w_full "A" "9").cache.size = cache_w_full.size ∧
    (lru_cache_get hash_w (lru_cache_put hash_w cache_w_full "A" "9").cache "A").value =
      some "9" ∧
    index_keys (lru_cache_put hash_w cache_w_full "A" "9").cache = ["B", "A"] := by
  decide

/-- C1: at the concrete failing input — a ring whose single entry has
hash 50 and a document whose hash is also 50, so that no entry's hash
strictly exceeds the document's — the routing of `loader_forward_request`
selects no server at all (the C dereferences an uninitialized pointer)
instead of wrapping to ring index 0 as claimed. -/
theorem C1_routing_fallthrough :
    lb_c1.servers = [⟨1, 50, none⟩] ∧
    hs_c1 "d" = 50 ∧
    forward_target lb_c1.servers (hs_c1 "d") = none ∧
    (loader_forward_request lb_c1 ⟨.GET_DOCUMENT, "d", ""⟩ hs_c1 hu_c1).1 = none := by
  refine ⟨rfl, rfl, rfl, rfl⟩

/-- C4: at the concrete failing input — two servers at ring hashes 10 and
50, document "d" of hash 10 pending as an edit on server 2, then
`loader_remove_server(2)` — the migration does copy "d" (with its edited
content) into the survivor's database, but a subsequent GET for "d" routes
to no server at all (uninitialized `target_server` in the C), so the
document is not retrievable as claimed. -/
theorem C4_unroutable_after_remove :
    lb_c4_after.servers = [⟨1, 10, none⟩] ∧
    (lru_cache_get hs_c4 (store_get lb_c4_after.store 1).local_db "d").value = some "v" ∧
    (loader_forward_request lb_c4_after ⟨.GET_DOCUMENT, "d", ""⟩ hs_c4 hu_c4).1 = none := by
  refine ⟨rfl, rfl, rfl⟩

/-- C3: at the concrete failing input — three families with virtual
nodes, document "d" owned by family 1, then `loader_remove_server(1)` —
after the removal completes the document's key resides in the databases
of two different surviving primary families (2 and 3) simultaneously,
because `remove_replicas` copies the departing primary's database into
each replica's successor without removing it elsewhere. -/
theorem C3_duplicate_after_remove :
    (lru_cache_get hs_c3 (store_get lb_c3_after.store 2).local_db "d").value = some "v" ∧
    (lru_cache_get hs_c3 (store_get lb_c3_after.store 3).local_db "d").value = some "v" ∧
    lb_c3_after.servers.map fam = [2, 3, 3, 2, 2, 3] := by
  refine ⟨rfl, rfl, rfl⟩

/-- C8 counterexample: two reachable insertions violate the claimed ring
order.  Inserting id 0 at hash 5 into [(5,1),(7,2)] lands after the
equal-hash entry of larger id (the tie-break of `get_insert_poz`'s loop
is inverted), and inserting id 3 at hash 0 into [(5,1)] is appended at
the end (the loop's `prev_hash < hash` guard can never hold for hash 0),
so neither resulting ring is sorted by (hash, id). -/
theorem C8_unsorted_insert_counterexample :
    lb_c8_tie.servers = [⟨1, 5, none⟩, ⟨0, 5, none⟩, ⟨2, 7, none⟩] ∧
    ¬ ring_sorted lb_c8_tie.servers ∧
    lb_c8_zero.servers = [⟨1, 5, none⟩, ⟨3, 0, none⟩] ∧
    ¬ ring_sorted lb_c8_zero.servers := by
  refine ⟨rfl, ?_, rfl, ?_⟩
  · unfold ring_sorted
    decide
  · unfold ring_sorted
    decide

theorem edit_responses_spec_acc (hf : String → Nat) (sid : Nat) (reqs : List request)
    (acc : List response) (c d : lru_cache) :
    (reqs.foldl (fun acc r =>
        let e := server_edit_document hf sid acc.2.1 acc.2.2 r.doc_name r.doc_content
        (acc.1 ++ [e.1], e.2.1, e.2.2)) (acc, c, d)).1 =
      acc ++ edit_responses_spec hf sid reqs (c, d) := by
  induction reqs generalizing acc c d with
  | nil => simp [edit_responses_spec]
  | cons r rest ih =>
    simp only [List.foldl_cons, edit_responses_spec]
    rw [ih, ih]
    simp

theorem edit_responses_spec_cons (hf : String → Nat) (sid : Nat) (r : request)
    (rest : List request) (c d : lru_cache) :
    edit_responses_spec hf sid (r :: rest) (c, d) =
      (server_edit_document hf sid c d r.doc_name r.doc_content).1 ::
        edit_responses_spec hf sid rest
          ((server_edit_document hf sid c d r.doc_name r.doc_content).2.1,
           (server_edit_document hf sid c d r.doc_name r.doc_content).2.2) := by
  simp only [edit_responses_spec, List.foldl_cons]
  rw [edit_responses_spec_acc]
  simp [edit_responses_spec]

theorem execute_edit_tasks_eq_spec (hf : String → Nat) (sid : Nat) (reqs : List request)
    (c d : lru_cache) :
    execute_edit_tasks hf sid reqs c d =
      (edit_responses_spec hf sid reqs (c, d), apply_edits_spec hf sid reqs (c, d)) := by
  induction reqs generalizing c d with
  | nil => rfl
  | cons r rest ih =>
    simp only [execute_edit_tasks, ih, apply_edits_spec, List.foldl_cons]
    rw [edit_responses_spec_cons]

theorem edit_responses_spec_length (hf : String → Nat) (sid : Nat) (reqs : List request)
    (c d : lru_cache) :
    (edit_responses_spec hf sid reqs (c, d)).length = reqs.length := by
  induction reqs generalizing c d with
  | nil => rfl
  | cons r rest ih =>
    rw [edit_responses_spec_cons]
    simp [ih]

/-- C2: `server_handle_request` on a GET first drains the whole task
queue, applying the pending edits in FIFO enqueue order — the printed
responses are exactly the per-edit responses of the front-to-back fold,
one per edit — and only then performs the read on the storage left by
all those edits; the task queue is empty in the resulting state. -/
theorem C2_get_flushes_then_reads (hf : String → Nat) (sid : Nat) (s : server)
    (d dc : String) :
    (server_handle_request hf sid s ⟨.GET_DOCUMENT, d, dc⟩).2.2.task_queue = [] ∧
    (server_handle_request hf sid s ⟨.GET_DOCUMENT, d, dc⟩).1 =
      edit_responses_spec hf sid s.task_queue (s.cache, s.local_db) ∧
    (server_handle_request hf sid s ⟨.GET_DOCUMENT, d, dc⟩).1.length = s.task_queue.length ∧
    (server_handle_request hf sid s ⟨.GET_DOCUMENT, d, dc⟩).2.1 =
      (server_get_document hf sid
        (apply_edits_spec hf sid s.task_queue (s.cache, s.local_db)).1
        (apply_edits_spec hf sid s.task_queue (s.cache, s.local_db)).2 d).1 := by
  simp only [server_handle_request, execute_edit_tasks_for_document,
    execute_edit_tasks_eq_spec, edit_responses_spec_length]
  exact ⟨trivial, trivial, trivial, trivial⟩

/-- C9: an EDIT arriving at a server whose task queue already holds
`MAX_TASK_QUEUE_SIZE` (1000) requests is dropped silently: the server —
queue, cache and database — is unchanged (so no later flush ever applies
the dropped edit), nothing is printed, and the call still produces the
normal lazy-execution response quoting depth 1000. -/
theorem C9_full_queue_drops_edit (hf : String → Nat) (sid : Nat) (s : server)
    (n content : String) (hq : s.task_queue.length = MAX_TASK_QUEUE_SIZE) :
    (server_handle_request hf sid s ⟨.EDIT_DOCUMENT, n, content⟩).2.2 = s ∧
    (server_handle_request hf sid s ⟨.EDIT_DOCUMENT, n, content⟩).1 = [] ∧
    (server_handle_request hf sid s ⟨.EDIT_DOCUMENT, n, content⟩).2.1 =
      { server_log := .logLazy MAX_TASK_QUEUE_SIZE,
        server_response := some (.msgA "EDIT" n), server_id := sid } := by
  simp [server_handle_request, q_enqueue, hq]

/-- Witness for C9 at a concrete server with a full queue. -/
theorem C9_full_queue_drops_edit_witness :
    (server_handle_request hash_w 7 server_w_full_queue ⟨.EDIT_DOCUMENT, "x", "y"⟩).2.2 =
      server_w_full_queue ∧
    (server_handle_request hash_w 7 server_w_full_queue ⟨.EDIT_DOCUMENT, "x", "y"⟩).1 = [] ∧
    (server_handle_request hash_w 7 server_w_full_queue ⟨.EDIT_DOCUMENT, "x", "y"⟩).2.1 =
      { server_log := .logLazy MAX_TASK_QUEUE_SIZE,
        server_response := some (.msgA "EDIT" "x"), server_id := 7 } :=
  C9_full_queue_drops_edit hash_w 7 server_w_full_queue "x" "y"
    (by simp [server_w_full_queue])

theorem insert_server_servers (lb : load_balancer) (s : ring_entry) (hs : String → Nat) :
    (insert_server lb s hs).servers = ring_insert lb.servers s := by
  unfold insert_server ring_insert
  cases hp : get_insert_poz lb.servers s.hash s.server_id with
  | none =>
    cases hv : lb.enable_vnodes <;> simp only [Bool.not_true, Bool.not_false] <;>
      split <;> split <;> rfl
  | some p =>
    cases hv : lb.enable_vnodes <;> simp only [Bool.not_true, Bool.not_false] <;>
      split <;> split <;> rfl

theorem gip_loop_char (shash sid : Nat) (l : List ring_entry) (i prev : Nat)
    (hprev : prev < shash) (hfresh : ∀ e ∈ l, e.hash ≠ shash) :
    get_insert_poz_loop l i prev shash sid =
      if ∃ e ∈ l, shash < e.hash then
        some ((l.takeWhile (fun e => decide (e.hash < shash))).length + i)
      else none := by
  induction l generalizing i prev with
  | nil => simp [get_insert_poz_loop]
  | cons e rest ih =>
    have hne : e.hash ≠ shash := hfresh e (List.mem_cons_self e rest)
    rcases Nat.lt_or_ge shash e.hash with hgt | hle
    · rw [get_insert_poz_loop, if_pos ⟨hgt, hprev⟩]
      have : ∃ x ∈ e :: rest, shash < x.hash := ⟨e, List.mem_cons_self e rest, hgt⟩
      rw [if_pos this]
      have hP : (decide (e.hash < shash)) = false := by
        simp
        omega
      simp [List.takeWhile_cons, hP]
    · have hlt : e.hash < shash := by omega
      rw [get_insert_poz_loop, if_neg (by omega), if_neg (by simp; omega)]
      rw [ih (i + 1) e.hash hlt (fun x hx => hfresh x (List.mem_cons_of_mem e hx))]
      have hP : (decide (e.hash < shash)) = true := by simp [hlt]
      by_cases hex : ∃ x ∈ rest, shash < x.hash
      · rw [if_pos hex, if_pos ?_]
        · simp [List.takeWhile_cons, hP]
          omega
        · obtain ⟨x, hx, hxx⟩ := hex
          exact ⟨x, List.mem_cons_of_mem e hx, hxx⟩
      · rw [if_neg hex, if_neg ?_]
        intro ⟨x, hx, hxx⟩
        rcases List.mem_cons.mp hx with h | h
        · subst h; omega
        · exact hex ⟨x, h, hxx⟩

theorem pairwise_le_getLast (l : List ring_entry) (last : ring_entry)
    (hsort : l.Pairwise (fun a b => a.hash < b.hash)) (hl : l.getLast? = some last) :
    ∀ e ∈ l, e.hash ≤ last.hash := by
  induction l with
  | nil => simp at hl
  | cons a t ih =>
    cases t with
    | nil =>
      simp at hl
      subst hl
      intro e he
      simp at he
      subst he
      exact le_refl _
    | cons b u =>
      rw [List.getLast?_cons_cons] at hl
      have hsort' := List.Pairwise.of_cons hsort
      have hmem : last ∈ b :: u := by
        obtain ⟨hne, heq⟩ := List.mem_getLast?_eq_getLast (Option.mem_def.mpr hl)
        subst heq
        exact List.getLast_mem hne
      intro e he
      rcases List.mem_cons.mp he with h | h
      · subst h
        have := (List.pairwise_cons.mp hsort).1 last hmem
        omega
      · exact ih hsort' hl e h

theorem takeWhile_all_dropWhile_nil {α : Type} (p : α → Bool) (l : List α)
    (h : ∀ e ∈ l, p e = true) : l.takeWhile p = l ∧ l.dropWhile p = [] := by
  induction l with
  | nil => simp
  | cons a t ih =>
    have ha := h a (List.mem_cons_self a t)
    have ht := ih (fun e he => h e (List.mem_cons_of_mem a he))
    simp [List.takeWhile_cons, List.dropWhile_cons, ha, ht.1, ht.2]

theorem insertIdx_at_prefix {α : Type} (l1 l2 : List α) (a : α) :
    (l1 ++ l2).insertIdx l1.length a = l1 ++ a :: l2 := by
  induction l1 with
  | nil => rfl
  | cons x t ih => simp [List.insertIdx, ih]; exact ih

theorem ring_insert_char (l : List ring_entry) (s : ring_entry)
    (hne : l ≠ [])
    (hsort : l.Pairwise (fun a b => a.hash < b.hash))
    (hfresh : ∀ e ∈ l, e.hash ≠ s.hash)
    (hpos : 0 < s.hash) :
    ring_insert l s = l.takeWhile (fun e => decide (e.hash < s.hash)) ++
      s :: l.dropWhile (fun e => decide (e.hash < s.hash)) := by
  obtain ⟨last, hlast⟩ : ∃ last, l.getLast? = some last := by
    cases hx : l.getLast? with
    | none => exact absurd (List.getLast?_eq_none_iff.mp hx) hne
    | some a => exact ⟨a, rfl⟩
  have hlastmem : last ∈ l := by
    obtain ⟨hn, heq⟩ := List.mem_getLast?_eq_getLast (Option.mem_def.mpr hlast)
    subst heq
    exact List.getLast_mem hn
  have hlastne : last.hash ≠ s.hash := hfresh last hlastmem
  rcases Nat.lt_or_ge last.hash s.hash with hlt | hge
  · have hall : ∀ e ∈ l, (fun e => decide (e.hash < s.hash)) e = true := by
      intro e he
      have := pairwise_le_getLast l last hsort hlast e he
      simp
      omega
    obtain ⟨ht, hd⟩ := takeWhile_all_dropWhile_nil _ l hall
    have hgip : get_insert_poz l s.hash s.server_id = none := by
      simp only [get_insert_poz, hlast]
      rw [if_pos hlt]
    simp only [ring_insert, hgip, ht, hd]
  · have hgt : s.hash < last.hash := by omega
    have hgip : get_insert_poz l s.hash s.server_id =
        some (l.takeWhile (fun e => decide (e.hash < s.hash))).length := by
      simp only [get_insert_poz, hlast]
      rw [if_neg (by omega), if_neg (by simp; omega),
        gip_loop_char s.hash s.server_id l 0 0 hpos hfresh,
        if_pos ⟨last, hlastmem, hgt⟩, Nat.add_zero]
    simp only [ring_insert, hgip]
    have hx := insertIdx_at_prefix (l.takeWhile (fun e => decide (e.hash < s.hash)))
      (l.dropWhile (fun e => decide (e.hash < s.hash))) s
    rw [List.takeWhile_append_dropWhile] at hx
    exact hx

/-- C8 (amended): when every ring hash is distinct and the inserted
entry's hash is nonzero and absent from the ring, `insert_server` places
the entry exactly between the entries hashing below it and those hashing
above it — the unique position preserving the order — and the resulting
ring is sorted (strictly by hash, hence by (hash, id)). -/
theorem C8_insert_sorted_amended (lb : load_balancer) (s : ring_entry) (hs : String → Nat)
    (hne : lb.servers ≠ [])
    (hsort : lb.servers.Pairwise (fun a b => a.hash < b.hash))
    (hfresh : ∀ e ∈ lb.servers, e.hash ≠ s.hash)
    (hpos : 0 < s.hash) :
    (insert_server lb s hs).servers =
      lb.servers.takeWhile (fun e => decide (e.hash < s.hash)) ++
        s :: lb.servers.dropWhile (fun e => decide (e.hash < s.hash)) ∧
    (insert_server lb s hs).servers.Pairwise (fun a b => a.hash < b.hash) ∧
    ring_sorted (insert_server lb s hs).servers := by
  have hchar := ring_insert_char lb.servers s hne hsort hfresh hpos
  rw [insert_server_servers, hchar]
  refine ⟨rfl, ?_, ?_⟩
  all_goals {
    have htw : ∀ a ∈ lb.servers.takeWhile (fun e => decide (e.hash < s.hash)),
        a.hash < s.hash := by
      intro a ha
      have := List.mem_takeWhile_imp ha
      simpa using this
    have hdwsub : (lb.servers.dropWhile (fun e => decide (e.hash < s.hash))).Sublist
        lb.servers := List.dropWhile_sublist _
    have hdsort := hsort.sublist hdwsub
    have hdw : ∀ a ∈ lb.servers.dropWhile (fun e => decide (e.hash < s.hash)),
        s.hash < a.hash := by
      intro a ha
      cases hdrop : lb.servers.dropWhile (fun e => decide (e.hash < s.hash)) with
      | nil => rw [hdrop] at ha; simp at ha
      | cons d ds =>
        have hd0 : ¬ (d.hash < s.hash) := by
          have := List.head?_dropWhile_not (p := fun e => decide (e.hash < s.hash))
            (l := lb.servers)
          rw [hdrop] at this
          simp at this
          omega
        have hdne : d.hash ≠ s.hash := by
          refine hfresh d ?_ 
          exact hdwsub.mem (by rw [hdrop]; exact List.mem_cons_self d ds)
        have hds : s.hash < d.hash := by omega
        rw [hdrop] at ha
        rcases List.mem_cons.mp ha with h | h
        · subst h; exact hds
        · rw [hdrop] at hdsort
          have := (List.pairwise_cons.mp hdsort).1 a h
          omega
    have hcross : ∀ a ∈ lb.servers.takeWhile (fun e => decide (e.hash < s.hash)),
        ∀ b ∈ lb.servers.dropWhile (fun e => decide (e.hash < s.hash)),
        a.hash < b.hash := by
      intro a ha b hb
      have h1 := htw a ha
      have h2 := hdw b hb
      omega
    have hsorted : (lb.servers.takeWhile (fun e => decide (e.hash < s.hash)) ++
        s :: lb.servers.dropWhile (fun e => decide (e.hash < s.hash))).Pairwise
          (fun a b => a.hash < b.hash) := by
      rw [List.pairwise_append]
      refine ⟨hsort.sublist (List.takeWhile_sublist _), ?_, ?_⟩
      · rw [List.pairwise_cons]
        exact ⟨hdw, hdsort⟩
      · intro a ha b hb
        rcases List.mem_cons.mp hb with h | h
        · subst h; exact htw a ha
        · exact hcross a ha b h
    first
    | exact hsorted
    | exact hsorted.imp (fun h => Or.inl h)
  }

/-- Witness for the amended C8 at a concrete reachable two-server ring. -/
theorem C8_insert_sorted_amended_witness :
    (insert_server
      (loader_add_server (loader_add_server (init_load_balancer false) 1 1 hu_c8 hs_c8)
        2 1 hu_c8 hs_c8)
      ⟨9, 6, none⟩ hs_c8).servers =
      (loader_add_server (loader_add_server (init_load_balancer false) 1 1 hu_c8 hs_c8)
        2 1 hu_c8 hs_c8).servers.takeWhile (fun e => decide (e.hash < 6)) ++
        (⟨9, 6, none⟩ : ring_entry) ::
        (loader_add_server (loader_add_server (init_load_balancer false) 1 1 hu_c8 hs_c8)
          2 1 hu_c8 hs_c8).servers.dropWhile (fun e => decide (e.hash < 6)) ∧
    (insert_server
      (loader_add_server (loader_add_server (init_load_balancer false) 1 1 hu_c8 hs_c8)
        2 1 hu_c8 hs_c8)
      ⟨9, 6, none⟩ hs_c8).servers.Pairwise (fun a b => a.hash < b.hash) ∧
    ring_sorted (insert_server
      (loader_add_server (loader_add_server (init_load_balancer false) 1 1 hu_c8 hs_c8)
        2 1 hu_c8 hs_c8)
      ⟨9, 6, none⟩ hs_c8).servers :=
  C8_insert_sorted_amended
    (loader_add_server (loader_add_server (init_load_balancer false) 1 1 hu_c8 hs_c8)
      2 1 hu_c8 hs_c8)
    ⟨9, 6, none⟩ hs_c8 (by decide) (by decide) (by decide) (by decide)

theorem flatten_set_decomp {α : Type} (L : List (List α)) (i : Nat) (b : List α)
    (h : i < L.length) :
    (L.set i b).flatten = (L.take i).flatten ++ b ++ (L.drop (i + 1)).flatten := by
  induction L generalizing i with
  | nil => simp at h
  | cons x t ih =>
    cases i with
    | zero => simp
    | succ n =>
      simp only [List.set_cons_succ, List.flatten_cons, List.take_succ_cons,
        List.drop_succ_cons, ih n (by simpa using h)]
      simp

theorem flatten_decomp {α : Type} (L : List (List α)) (i : Nat) (h : i < L.length) :
    L.flatten = (L.take i).flatten ++ L.getD i [] ++ (L.drop (i + 1)).flatten := by
  have := flatten_set_decomp L i (L.getD i []) h
  rwa [list_set_getD_self] at this

theorem getD_set_self {α : Type} (L : List (List α)) (i : Nat) (b : List α)
    (h : i < L.length) : (L.set i b).getD i [] = b := by
  rw [List.getD_eq_getElem _ _ (by simpa using h)]
  simp [List.getElem_set]

theorem getD_set_ne {α : Type} (L : List (List α)) (i j : Nat) (b : List α)
    (hne : i ≠ j) : (L.set i b).getD j [] = L.getD j [] := by
  rcases Nat.lt_or_ge j L.length with h | h
  · rw [List.getD_eq_getElem _ _ (by simpa using h), List.getD_eq_getElem _ _ h]
    simp [List.getElem_set, hne]
  · rw [List.getD_eq_default _ _ (by simpa using h), List.getD_eq_default _ _ h]

theorem first_key_decomp (b : List info) (k : String) (h : k ∈ b.map info.key) :
    ∃ p e r, b = p ++ e :: r ∧ e.key = k ∧ k ∉ p.map info.key := by
  induction b with
  | nil => simp at h
  | cons x t ih =>
    by_cases hx : x.key = k
    · exact ⟨[], x, t, rfl, hx, by simp⟩
    · have hm : k ∈ t.map info.key := by
        simp only [List.map_cons, List.mem_cons] at h
        rcases h with h | h
        · exact absurd h.symm hx
        · exact h
      obtain ⟨p, e, r, hb, he, hp⟩ := ih hm
      exact ⟨x :: p, e, r, by rw [hb]; simp, he, by
        simp only [List.map_cons, List.mem_cons]
        push_neg
        exact ⟨fun hh => hx hh.symm, hp⟩⟩

theorem mem_flatten_idx {α : Type} (L : List (List α)) (e : α) (h : e ∈ L.flatten) :
    ∃ i, i < L.length ∧ e ∈ L.getD i [] := by
  obtain ⟨l, hl, hel⟩ := List.mem_flatten.mp h
  obtain ⟨i, hi, hgl⟩ := List.mem_iff_getElem.mp hl
  exact ⟨i, hi, by rw [List.getD_eq_getElem _ _ hi, hgl]; exact hel⟩

theorem nodup_map_inj {α β : Type} {l : List α} {f : α → β} (hnd : (l.map f).Nodup)
    {a b : α} (ha : a ∈ l) (hb : b ∈ l) (hf : f a = f b) : a = b :=
  List.inj_on_of_nodup_map hnd ha hb hf

theorem find_node_eq (idx : List dll_node) (n : dll_node)
    (hnd : (idx.map dll_node.nid).Nodup) (hn : n ∈ idx) :
    find_node idx n.nid = some n := by
  induction idx with
  | nil => simp at hn
  | cons m rest ih =>
    rcases List.mem_cons.mp hn with h | h
    · subst h
      simp [find_node, List.find?]
    · have hne : m.nid ≠ n.nid := by
        intro heq
        have : m = n := nodup_map_inj hnd (List.mem_cons_self m rest) hn heq
        subst this
        simp only [List.map_cons, List.nodup_cons] at hnd
        exact hnd.1 (List.mem_map.mpr ⟨m, h, rfl⟩)
      unfold find_node
      rw [List.find?_cons_of_neg _ (by simpa using hne)]
      exact ih (by simp only [List.map_cons, List.nodup_cons] at hnd; exact hnd.2) h

theorem eraseP_first {α : Type} (p : α → Bool) (l1 l2 : List α) (e : α)
    (h1 : ∀ x ∈ l1, p x = false) (he : p e = true) :
    (l1 ++ e :: l2).eraseP p = l1 ++ l2 := by
  induction l1 with
  | nil => simp [List.eraseP_cons, he]
  | cons x t ih =>
    have hx := h1 x (List.mem_cons_self x t)
    rw [List.cons_append, List.eraseP_cons_of_neg (by simp [hx]),
      ih (fun y hy => h1 y (List.mem_cons_of_mem x hy)), List.cons_append]

theorem nid_decomp (idx : List dll_node) (n : dll_node)
    (hnd : (idx.map dll_node.nid).Nodup) (hn : n ∈ idx) :
    ∃ l1 l2, idx = l1 ++ n :: l2 ∧ (∀ m ∈ l1, m.nid ≠ n.nid) ∧
      dll_remove_node idx n.nid = l1 ++ l2 := by
  obtain ⟨l1, l2, hsplit⟩ := List.append_of_mem hn
  refine ⟨l1, l2, hsplit, ?_, ?_⟩
  · intro m hm heq
    have : m = n := nodup_map_inj hnd (by rw [hsplit]; simp [hm]) hn heq
    subst this
    rw [hsplit] at hnd
    simp only [List.map_append, List.map_cons] at hnd
    have := (List.nodup_append.mp hnd).2.2
    exact this (List.mem_map.mpr ⟨m, hm, rfl⟩) (by simp)
  · rw [hsplit]
    unfold dll_remove_node
    refine eraseP_first _ l1 l2 n ?_ (by simp)
    intro x hx
    simp only [beq_eq_false_iff_ne, ne_eq]
    intro heq
    have : x = n := nodup_map_inj hnd (by rw [hsplit]; simp [hx]) hn heq
    subst this
    rw [hsplit] at hnd
    simp only [List.map_append, List.map_cons] at hnd
    have := (List.nodup_append.mp hnd).2.2
    exact this (List.mem_map.mpr ⟨x, hx, rfl⟩) (by simp)

theorem lru_put_scan_found (k v : String) (p : List info) (e : info) (r : List info)
    (idx : List dll_node) (fresh : Nat) (n : dll_node)
    (hp : k ∉ p.map info.key) (he : e.key = k)
    (hfind : find_node idx e.pointer_to_node = some n) (hnk : n.key = k) :
    lru_put_scan k v (p ++ e :: r) idx fresh =
      ⟨p ++ { key := e.key, value := v, pointer_to_node := fresh } :: r,
       dll_remove_node idx e.pointer_to_node ++ [⟨fresh, e.key, v⟩],
       fresh + 1, true, true⟩ := by
  induction p with
  | nil =>
    simp only [List.nil_append]
    rw [lru_put_scan, if_pos (by simp [he])]
    simp only [hfind]
    rw [if_pos (by simp [hnk])]
  | cons x t ih =>
    simp only [List.map_cons, List.mem_cons] at hp
    push_neg at hp
    have hxk : (x.key == k) = false := by
      simp only [beq_eq_false_iff_ne, ne_eq]
      exact fun hh => hp.1 hh.symm
    simp only [List.cons_append]
    rw [lru_put_scan, if_neg (by simp [hxk])]
    rw [ih hp.2]

theorem lru_get_scan_found (k : String) (p : List info) (e : info) (r : List info)
    (idx : List dll_node) (fresh : Nat) (acc : List info) (n : dll_node)
    (hp : k ∉ p.map info.key) (he : e.key = k)
    (hfind : find_node idx e.pointer_to_node = some n) (hnk : n.key = k) :
    lru_get_scan k idx fresh acc (p ++ e :: r) =
      (some e.value,
       { e with pointer_to_node := fresh } :: (acc.reverse ++ p ++ r),
       dll_remove_node idx e.pointer_to_node ++ [⟨fresh, e.key, e.value⟩],
       fresh + 1) := by
  induction p generalizing acc with
  | nil =>
    simp only [List.nil_append]
    rw [lru_get_scan, if_pos (by simp [he])]
    simp only [hfind]
    rw [if_pos (by simp [hnk])]
    simp
  | cons x t ih =>
    simp only [List.map_cons, List.mem_cons] at hp
    push_neg at hp
    have hxk : (x.key == k) = false := by
      simp only [beq_eq_false_iff_ne, ne_eq]
      exact fun hh => hp.1 hh.symm
    simp only [List.cons_append]
    rw [lru_get_scan, if_neg (by simp [hxk])]
    rw [ih (x :: acc) hp.2]
    simp

theorem lru_remove_scan_absent (k : String) (idx : List dll_node) (acc b : List info)
    (h : k ∉ b.map info.key) :
    lru_remove_scan k idx acc b = none := by
  induction b generalizing acc with
  | nil => rfl
  | cons e rest ih =>
    simp only [List.map_cons, List.mem_cons] at h
    push_neg at h
    have hek : (e.key == k) = false := by
      simp only [beq_eq_false_iff_ne, ne_eq]
      exact fun hx => h.1 hx.symm
    rw [lru_remove_scan, if_neg (by simp [hek])]
    exact ih (e :: acc) h.2

theorem lru_remove_scan_found (k : String) (p : List info) (e : info) (r : List info)
    (idx : List dll_node) (acc : List info)
    (hp : k ∉ p.map info.key) (he : e.key = k) :
    lru_remove_scan k idx acc (p ++ e :: r) =
      some (acc.reverse ++ p ++ r, dll_remove_node idx e.pointer_to_node) := by
  induction p generalizing acc with
  | nil =>
    simp only [List.nil_append]
    rw [lru_remove_scan, if_pos (by simp [he])]
    simp
  | cons x t ih =>
    simp only [List.map_cons, List.mem_cons] at hp
    push_neg at hp
    have hxk : (x.key == k) = false := by
      simp only [beq_eq_false_iff_ne, ne_eq]
      exact fun hh => hp.1 hh.symm
    simp only [List.cons_append]
    rw [lru_remove_scan, if_neg (by simp [hxk])]
    rw [ih (x :: acc) hp.2]
    simp

theorem keys_flatten_set (L : List (List info)) (bi : Nat) (b' : List info)
    (h : bi < L.length) :
    ((L.set bi b').flatten).map info.key =
      ((L.take bi).flatten).map info.key ++ b'.map info.key ++
        ((L.drop (bi + 1)).flatten).map info.key := by
  rw [flatten_set_decomp L bi b' h]
  simp

theorem keys_flatten_decomp (L : List (List info)) (bi : Nat) (h : bi < L.length) :
    (L.flatten).map info.key =
      ((L.take bi).flatten).map info.key ++ (L.getD bi []).map info.key ++
        ((L.drop (bi + 1)).flatten).map info.key := by
  rw [flatten_decomp L bi h]
  simp

theorem mem_flatten_set {x : info} (L : List (List info)) (bi : Nat) (b' : List info)
    (h : bi < L.length) (hx : x ∈ (L.set bi b').flatten) :
    x ∈ (L.take bi).flatten ∨ x ∈ b' ∨ x ∈ (L.drop (bi + 1)).flatten := by
  rw [flatten_set_decomp L bi b' h] at hx
  simp only [List.mem_append] at hx
  tauto

theorem mem_take_drop_mem_flatten {x : info} (L : List (List info)) (bi : Nat)
    (h : bi < L.length)
    (hx : x ∈ (L.take bi).flatten ∨ x ∈ (L.drop (bi + 1)).flatten) :
    x ∈ L.flatten := by
  rw [flatten_decomp L bi h]
  simp only [List.mem_append]
  tauto

theorem mem_bucket_mem_flatten {x : info} (L : List (List info)) (bi : Nat)
    (h : bi < L.length) (hx : x ∈ L.getD bi []) : x ∈ L.flatten := by
  rw [flatten_decomp L bi h]
  simp only [List.mem_append]
  tauto

/-- The insertion block at the end of `lru_cache_put` preserves the cache
invariant when the key is absent and there is room. -/
theorem cache_inv_insert_step (hf : String → Nat) (c : lru_cache) (k v : String)
    (hinv : cache_inv hf c) (habs : k ∉ bucket_keys c) (hsz : c.size < c.capacity) :
    cache_inv hf { c with
      buckets := c.buckets.set (hf k % c.capacity)
        (({ key := k, value := v, pointer_to_node := c.next_id } : info) ::
          c.buckets.getD (hf k % c.capacity) [])
      index := c.index ++ [⟨c.next_id, k, v⟩]
      next_id := c.next_id + 1
      size := c.size + 1 } := by
  obtain ⟨hcap, hblen, hilen, hszle, hperm, hnd, hnid, hbound, hback, hplace⟩ := hinv
  have hbi : hf k % c.capacity < c.buckets.length := by
    rw [hblen]; exact Nat.mod_lt _ hcap
  have hkidx : k ∉ index_keys c := fun hk => habs (hperm.symm.mem_iff.mp hk)
  refine ⟨by simpa using hcap, by simpa using hblen, by simp [hilen], by simp; omega,
    ?_, ?_, ?_, ?_, ?_, ?_⟩
  · -- key bijection
    dsimp only [bucket_keys, index_keys, cache_entries]
    rw [keys_flatten_set _ _ _ hbi]
    simp only [List.map_cons, List.map_append, List.map_cons, List.map_nil]
    have hsplit : bucket_keys c =
        ((c.buckets.take (hf k % c.capacity)).flatten).map info.key ++
        (((c.buckets.getD (hf k % c.capacity) []).map info.key) ++
         ((c.buckets.drop (hf k % c.capacity + 1)).flatten).map info.key) := by
      unfold bucket_keys cache_entries
      rw [keys_flatten_decomp _ _ hbi, List.append_assoc]
    refine List.Perm.trans ?_ ((hperm.cons k).trans (List.perm_append_singleton k _).symm)
    rw [hsplit]
    have hm := perm_middle_exp k
      (((c.buckets.take (hf k % c.capacity)).flatten).map info.key)
      (((c.buckets.getD (hf k % c.capacity) []).map info.key) ++
         ((c.buckets.drop (hf k % c.capacity + 1)).flatten).map info.key)
    simpa [List.append_assoc] using hm
  · -- key nodup
    dsimp only [index_keys]
    simp only [List.map_append, List.map_cons, List.map_nil]
    rw [List.nodup_append]
    exact ⟨hnd, List.nodup_singleton k, by
      intro a ha hb
      simp only [List.mem_singleton] at hb
      subst hb
      exact hkidx ha⟩
  · -- nid nodup
    dsimp only
    simp only [List.map_append, List.map_cons, List.map_nil]
    rw [List.nodup_append]
    refine ⟨hnid, List.nodup_singleton _, ?_⟩
    intro a ha hb
    simp only [List.mem_singleton] at hb
    subst hb
    obtain ⟨m, hm, hmn⟩ := List.mem_map.mp ha
    exact absurd (hmn ▸ hbound m hm) (lt_irrefl _)
  · -- nid bound
    dsimp only
    intro n hn
    simp only [List.mem_append, List.mem_singleton] at hn
    rcases hn with hn | hn
    · exact Nat.lt_succ_of_lt (hbound n hn)
    · subst hn; exact Nat.lt_succ_self _
  · -- back references
    dsimp only [cache_entries]
    intro e he
    have := mem_flatten_set _ _ _ hbi he
    rcases this with hx | hx | hx
    · obtain ⟨n, hn, h1, h2⟩ := hback e (mem_take_drop_mem_flatten _ _ hbi (Or.inl hx))
      exact ⟨n, by simp [hn], h1, h2⟩
    · rcases List.mem_cons.mp hx with hx | hx
      · subst hx
        exact ⟨⟨c.next_id, k, v⟩, by simp, rfl, rfl⟩
      · obtain ⟨n, hn, h1, h2⟩ := hback e (mem_bucket_mem_flatten _ _ hbi hx)
        exact ⟨n, by simp [hn], h1, h2⟩
    · obtain ⟨n, hn, h1, h2⟩ := hback e (mem_take_drop_mem_flatten _ _ hbi (Or.inr hx))
      exact ⟨n, by simp [hn], h1, h2⟩
  · -- placement
    dsimp only
    intro i hi e he
    simp only [List.mem_range, List.length_set] at hi
    by_cases hieq : hf k % c.capacity = i
    · subst hieq
      rw [getD_set_self _ _ _ hbi] at he
      rcases List.mem_cons.mp he with hx | hx
      · subst hx; rfl
      · exact hplace _ (by simpa [hblen] using hbi) e hx
    · rw [getD_set_ne _ _ _ _ hieq] at he
      exact hplace i (by simpa using hi) e he

theorem nodup_k_extract {A pk rk B : List String} {K : String}
    (h : (A ++ (pk ++ K :: rk) ++ B).Nodup) :
    K ∉ A ∧ K ∉ pk ∧ K ∉ rk ∧ K ∉ B ∧ (A ++ (pk ++ rk) ++ B).Nodup := by
  have h2 : ((A ++ pk) ++ K :: (rk ++ B)).Nodup := by
    simpa [List.append_assoc] using h
  rw [List.nodup_middle, List.nodup_cons] at h2
  have hnot := h2.1
  have hnd2 := h2.2
  simp only [List.mem_append, not_or] at hnot
  exact ⟨hnot.1.1, hnot.1.2, hnot.2.1, hnot.2.2, by simpa [List.append_assoc] using hnd2⟩

theorem perm_pull_middle (A pk rk B : List String) (K : String) :
    (A ++ (pk ++ K :: rk) ++ B).Perm (K :: (A ++ (pk ++ rk) ++ B)) := by
  have hm := perm_middle_exp K (A ++ pk) (rk ++ B)
  have h1 : A ++ (pk ++ K :: rk) ++ B = (A ++ pk) ++ K :: (rk ++ B) := by
    simp [List.append_assoc]
  have h2 : (A ++ pk) ++ (rk ++ B) = A ++ (pk ++ rk) ++ B := by
    simp [List.append_assoc]
  rw [h1]
  rw [h2] at hm
  exact hm

/-- Removing the unique entry carrying key `K` from its bucket together
with the unique recency node carrying `K` preserves the cache invariant
(the eviction block of `lru_cache_put` and the hit path of
`lru_cache_remove`). -/
theorem cache_inv_delete_step (hf : String → Nat) (c : lru_cache) (K : String)
    (p r : List info) (e : info) (l1 l2 : List dll_node) (nn : dll_node)
    (hinv : cache_inv hf c)
    (hbuck : c.buckets.getD (hf K % c.capacity) [] = p ++ e :: r)
    (he : e.key = K) (hp : K ∉ p.map info.key)
    (hidx : c.index = l1 ++ nn :: l2) (hnnk : nn.key = K) :
    cache_inv hf { c with
      buckets := c.buckets.set (hf K % c.capacity) (p ++ r)
      index := l1 ++ l2
      size := c.size - 1 } := by
  obtain ⟨hcap, hblen, hilen, hszle, hperm, hnd, hnid, hbound, hback, hplace⟩ := hinv
  have hbi : hf K % c.capacity < c.buckets.length := by
    rw [hblen]; exact Nat.mod_lt _ hcap
  have hsz1 : 1 ≤ c.size := by
    have hlen := congrArg List.length hidx
    simp at hlen
    omega
  -- abbreviations for the three key regions
  have hbk : bucket_keys c =
      ((c.buckets.take (hf K % c.capacity)).flatten).map info.key ++
        ((p.map info.key) ++ K :: (r.map info.key)) ++
        ((c.buckets.drop (hf K % c.capacity + 1)).flatten).map info.key := by
    unfold bucket_keys cache_entries
    rw [keys_flatten_decomp _ _ hbi, hbuck]
    simp [he]
  have hik : index_keys c = (l1.map dll_node.key) ++ K :: (l2.map dll_node.key) := by
    unfold index_keys
    rw [hidx]
    simp [hnnk]
  have hbknd : (bucket_keys c).Nodup := hperm.symm.nodup hnd
  have hextract := nodup_k_extract (hbk ▸ hbknd)
  have hikextract : K ∉ l1.map dll_node.key ∧ K ∉ l2.map dll_node.key ∧
      ((l1.map dll_node.key) ++ (l2.map dll_node.key)).Nodup := by
    have hx := hik ▸ hnd
    rw [List.nodup_middle, List.nodup_cons] at hx
    have hnot := hx.1
    simp only [List.mem_append, not_or] at hnot
    exact ⟨hnot.1, hnot.2, hx.2⟩
  have hcore : (((c.buckets.take (hf K % c.capacity)).flatten).map info.key ++
      ((p.map info.key) ++ (r.map info.key)) ++
      ((c.buckets.drop (hf K % c.capacity + 1)).flatten).map info.key).Perm
      ((l1.map dll_node.key) ++ (l2.map dll_node.key)) := by
    have h1 : (bucket_keys c).Perm (K :: (((c.buckets.take (hf K % c.capacity)).flatten).map info.key ++
        ((p.map info.key) ++ (r.map info.key)) ++
        ((c.buckets.drop (hf K % c.capacity + 1)).flatten).map info.key)) := by
      rw [hbk]; exact perm_pull_middle _ _ _ _ _
    have h2 : (index_keys c).Perm (K :: ((l1.map dll_node.key) ++ (l2.map dll_node.key))) := by
      rw [hik]
      simpa using perm_middle_exp K (l1.map dll_node.key) (l2.map dll_node.key)
    exact List.Perm.cons_inv (h1.symm.trans (hperm.trans h2))
  refine ⟨by simpa using hcap, by simpa using hblen, ?_, by simp; omega,
    ?_, ?_, ?_, ?_, ?_, ?_⟩
  · -- index length
    dsimp only
    have hlen := congrArg List.length hidx
    simp at hlen
    simp
    omega
  · -- key bijection
    dsimp only [bucket_keys, index_keys, cache_entries]
    rw [keys_flatten_set _ _ _ hbi]
    simpa using hcore
  · -- key nodup
    dsimp only [index_keys]
    simpa using hikextract.2.2
  · -- nid nodup
    dsimp only
    have : ((l1 ++ l2).map dll_node.nid).Sublist ((l1 ++ nn :: l2).map dll_node.nid) := by
      refine List.Sublist.map _ ?_
      exact List.Sublist.append_left (List.sublist_cons_self nn l2) l1
    exact (hidx ▸ hnid).sublist this
  · -- nid bound
    dsimp only
    intro n hn
    refine hbound n ?_
    rw [hidx]
    simp only [List.mem_append, List.mem_cons] at hn ⊢
    tauto
  · -- back references
    dsimp only [cache_entries]
    intro x hx
    have hmem := mem_flatten_set _ _ _ hbi hx
    have hxold : x ∈ cache_entries c := by
      rcases hmem with hm | hm | hm
      · exact mem_take_drop_mem_flatten _ _ hbi (Or.inl hm)
      · refine mem_bucket_mem_flatten _ _ hbi ?_
        rw [hbuck]
        rcases List.mem_append.mp hm with h | h
        · exact List.mem_append.mpr (Or.inl h)
        · exact List.mem_append.mpr (Or.inr (List.mem_cons_of_mem e h))
      · exact mem_take_drop_mem_flatten _ _ hbi (Or.inr hm)
    have hxk : x.key ≠ K := by
      intro hxK
      rcases hmem with hm | hm | hm
      · exact hextract.1 (by
          have hh := List.mem_map_of_mem info.key hm
          rwa [hxK] at hh)
      · rcases List.mem_append.mp hm with h | h
        · exact hextract.2.1 (by
            have hh := List.mem_map_of_mem info.key h
            rwa [hxK] at hh)
        · exact hextract.2.2.1 (by
            have hh := List.mem_map_of_mem info.key h
            rwa [hxK] at hh)
      · exact hextract.2.2.2.1 (by
          have hh := List.mem_map_of_mem info.key hm
          rwa [hxK] at hh)
    obtain ⟨n2, hn2, hnid2, hkey2⟩ := hback x hxold
    have hn2ne : n2 ≠ nn := by
      intro heq
      subst heq
      exact hxk (hkey2.symm.trans hnnk)
    refine ⟨n2, ?_, hnid2, hkey2⟩
    rw [hidx] at hn2
    simp only [List.mem_append, List.mem_cons] at hn2 ⊢
    rcases hn2 with h | h | h
    · exact Or.inl h
    · exact absurd h hn2ne
    · exact Or.inr h
  · -- placement
    dsimp only
    intro i hi x hx
    simp only [List.mem_range, List.length_set] at hi
    by_cases hieq : hf K % c.capacity = i
    · subst hieq
      rw [getD_set_self _ _ _ hbi] at hx
      refine hplace _ (by simpa [hblen] using hbi) x ?_
      rw [hbuck]
      rcases List.mem_append.mp hx with h | h
      · exact List.mem_append.mpr (Or.inl h)
      · exact List.mem_append.mpr (Or.inr (List.mem_cons_of_mem e h))
    · rw [getD_set_ne _ _ _ _ hieq] at hx
      exact hplace i (by simpa using hi) x hx

/-- Promoting the unique entry carrying key `k` to most recently used —
replace its recency node with a fresh tail node, update its
back-reference, and rearrange its bucket without changing the key
multiset — preserves the cache invariant (the early-return of
`lru_cache_put` and the hit path of `lru_cache_get`). -/
theorem cache_inv_promote_step (hf : String → Nat) (c : lru_cache) (k w : String)
    (p r : List info) (e : info) (l1 l2 : List dll_node) (nn : dll_node) (b' : List info)
    (hinv : cache_inv hf c)
    (hbuck : c.buckets.getD (hf k % c.capacity) [] = p ++ e :: r)
    (he : e.key = k) (hp : k ∉ p.map info.key)
    (hidx : c.index = l1 ++ nn :: l2) (hnnk : nn.key = k)
    (hb' : b'.Perm (({ key := k, value := w, pointer_to_node := c.next_id } : info) :: (p ++ r))) :
    cache_inv hf { c with
      buckets := c.buckets.set (hf k % c.capacity) b'
      index := (l1 ++ l2) ++ [⟨c.next_id, k, w⟩]
      next_id := c.next_id + 1 } := by
  obtain ⟨hcap, hblen, hilen, hszle, hperm, hnd, hnid, hbound, hback, hplace⟩ := hinv
  have hbi : hf k % c.capacity < c.buckets.length := by
    rw [hblen]; exact Nat.mod_lt _ hcap
  have hbk : bucket_keys c =
      ((c.buckets.take (hf k % c.capacity)).flatten).map info.key ++
        ((p.map info.key) ++ k :: (r.map info.key)) ++
        ((c.buckets.drop (hf k % c.capacity + 1)).flatten).map info.key := by
    unfold bucket_keys cache_entries
    rw [keys_flatten_decomp _ _ hbi, hbuck]
    simp [he]
  have hik : index_keys c = (l1.map dll_node.key) ++ k :: (l2.map dll_node.key) := by
    unfold index_keys
    rw [hidx]
    simp [hnnk]
  have hbknd : (bucket_keys c).Nodup := hperm.symm.nodup hnd
  have hextract := nodup_k_extract (hbk ▸ hbknd)
  have hikextract : k ∉ l1.map dll_node.key ∧ k ∉ l2.map dll_node.key ∧
      ((l1.map dll_node.key) ++ (l2.map dll_node.key)).Nodup := by
    have hx := hik ▸ hnd
    rw [List.nodup_middle, List.nodup_cons] at hx
    have hnot := hx.1
    simp only [List.mem_append, not_or] at hnot
    exact ⟨hnot.1, hnot.2, hx.2⟩
  have hcore : (((c.buckets.take (hf k % c.capacity)).flatten).map info.key ++
      ((p.map info.key) ++ (r.map info.key)) ++
      ((c.buckets.drop (hf k % c.capacity + 1)).flatten).map info.key).Perm
      ((l1.map dll_node.key) ++ (l2.map dll_node.key)) := by
    have h1 : (bucket_keys c).Perm (k :: (((c.buckets.take (hf k % c.capacity)).flatten).map info.key ++
        ((p.map info.key) ++ (r.map info.key)) ++
        ((c.buckets.drop (hf k % c.capacity + 1)).flatten).map info.key)) := by
      rw [hbk]; exact perm_pull_middle _ _ _ _ _
    have h2 : (index_keys c).Perm (k :: ((l1.map dll_node.key) ++ (l2.map dll_node.key))) := by
      rw [hik]
      simpa using perm_middle_exp k (l1.map dll_node.key) (l2.map dll_node.key)
    exact List.Perm.cons_inv (h1.symm.trans (hperm.trans h2))
  have hlen := congrArg List.length hidx
  simp at hlen
  refine ⟨by simpa using hcap, by simpa using hblen, ?_, by simp; omega,
    ?_, ?_, ?_, ?_, ?_, ?_⟩
  · -- index length
    dsimp only
    simp
    omega
  · -- key bijection
    dsimp only [bucket_keys, index_keys, cache_entries]
    rw [keys_flatten_set _ _ _ hbi]
    have hb'keys : (b'.map info.key).Perm
        (k :: ((p.map info.key) ++ (r.map info.key))) := by
      have := hb'.map info.key
      simpa using this
    refine List.Perm.trans (((hb'keys.append_left _).append_right _)) ?_
    have hpull : (((c.buckets.take (hf k % c.capacity)).flatten).map info.key ++
        (k :: ((p.map info.key) ++ (r.map info.key))) ++
        ((c.buckets.drop (hf k % c.capacity + 1)).flatten).map info.key).Perm
        (k :: (((c.buckets.take (hf k % c.capacity)).flatten).map info.key ++
          ((p.map info.key) ++ (r.map info.key)) ++
          ((c.buckets.drop (hf k % c.capacity + 1)).flatten).map info.key)) := by
      have := perm_pull_middle
        (((c.buckets.take (hf k % c.capacity)).flatten).map info.key)
        [] ((p.map info.key) ++ (r.map info.key))
        (((c.buckets.drop (hf k % c.capacity + 1)).flatten).map info.key) k
      simpa using this
    refine hpull.trans ?_
    refine List.Perm.trans (hcore.cons k) ?_
    simpa using (List.perm_append_singleton k
      ((l1.map dll_node.key) ++ (l2.map dll_node.key))).symm
  · -- key nodup
    dsimp only [index_keys]
    simp only [List.map_append, List.map_cons, List.map_nil]
    rw [List.nodup_append]
    refine ⟨hikextract.2.2, List.nodup_singleton _, ?_⟩
    intro a ha hb
    simp only [List.mem_singleton] at hb
    subst hb
    rcases List.mem_append.mp ha with h | h
    · exact hikextract.1 h
    · exact hikextract.2.1 h
  · -- nid nodup
    dsimp only
    simp only [List.map_append, List.map_cons, List.map_nil]
    rw [List.nodup_append]
    have hsub : ((l1 ++ l2).map dll_node.nid).Sublist ((l1 ++ nn :: l2).map dll_node.nid) := by
      refine List.Sublist.map _ ?_
      exact List.Sublist.append_left (List.sublist_cons_self nn l2) l1
    have hnd12 : ((l1 ++ l2).map dll_node.nid).Nodup := (hidx ▸ hnid).sublist hsub
    refine ⟨by simpa using hnd12, List.nodup_singleton _, ?_⟩
    intro a ha hb
    simp only [List.mem_singleton] at hb
    have hamem : a ∈ (l1 ++ nn :: l2).map dll_node.nid := by
      simp only [List.map_append, List.map_cons, List.mem_append, List.mem_cons]
      simp only [List.mem_append] at ha
      rcases ha with h | h
      · exact Or.inl (by simpa using h)
      · exact Or.inr (Or.inr (by simpa using h))
    obtain ⟨m, hm, hmn⟩ := List.mem_map.mp hamem
    have := hbound m (hidx ▸ hm)
    omega
  · -- nid bound
    dsimp only
    intro n hn
    simp only [List.mem_append, List.mem_singleton] at hn
    rcases hn with (hn | hn) | hn
    · exact Nat.lt_succ_of_lt (hbound n (by rw [hidx]; simp [hn]))
    · exact Nat.lt_succ_of_lt (hbound n (by rw [hidx]; simp [hn]))
    · subst hn; exact Nat.lt_succ_self _
  · -- back references
    dsimp only [cache_entries]
    intro x hx
    have hmem := mem_flatten_set _ _ _ hbi hx
    have hside : ∀ n2, n2 ∈ c.index → n2.nid = x.pointer_to_node → n2.key = x.key →
        x.key ≠ k → ∃ n ∈ (l1 ++ l2) ++ [(⟨c.next_id, k, w⟩ : dll_node)],
          n.nid = x.pointer_to_node ∧ n.key = x.key := by
      intro n2 hn2 ha hb hxk
      have hn2ne : n2 ≠ nn := by
        intro heq
        subst heq
        exact hxk (hb.symm.trans hnnk)
      refine ⟨n2, ?_, ha, hb⟩
      rw [hidx] at hn2
      simp only [List.mem_append, List.mem_cons, List.mem_singleton] at hn2 ⊢
      rcases hn2 with h | h | h
      · exact Or.inl (Or.inl h)
      · exact absurd h hn2ne
      · exact Or.inl (Or.inr h)
    rcases hmem with hm | hm | hm
    · obtain ⟨n2, hn2, ha, hb⟩ := hback x (mem_take_drop_mem_flatten _ _ hbi (Or.inl hm))
      refine hside n2 hn2 ha hb ?_
      intro hxk
      exact hextract.1 (by
        have hh := List.mem_map_of_mem info.key hm
        rwa [hxk] at hh)
    · have hmb := hb'.mem_iff.mp hm
      rcases List.mem_cons.mp hmb with hm2 | hm2
      · subst hm2
        exact ⟨⟨c.next_id, k, w⟩, by simp, rfl, rfl⟩
      · obtain ⟨n2, hn2, ha, hb⟩ := hback x (by
          refine mem_bucket_mem_flatten _ _ hbi ?_
          rw [hbuck]
          rcases List.mem_append.mp hm2 with h | h
          · exact List.mem_append.mpr (Or.inl h)
          · exact List.mem_append.mpr (Or.inr (List.mem_cons_of_mem e h)))
        refine hside n2 hn2 ha hb ?_
        intro hxk
        rcases List.mem_append.mp hm2 with h | h
        · exact hextract.2.1 (by
            have hh := List.mem_map_of_mem info.key h
            rwa [hxk] at hh)
        · exact hextract.2.2.1 (by
            have hh := List.mem_map_of_mem info.key h
            rwa [hxk] at hh)
    · obtain ⟨n2, hn2, ha, hb⟩ := hback x (mem_take_drop_mem_flatten _ _ hbi (Or.inr hm))
      refine hside n2 hn2 ha hb ?_
      intro hxk
      exact hextract.2.2.2.1 (by
        have hh := List.mem_map_of_mem info.key hm
        rwa [hxk] at hh)
  · -- placement
    dsimp only
    intro i hi x hx
    simp only [List.mem_range, List.length_set] at hi
    by_cases hieq : hf k % c.capacity = i
    · subst hieq
      rw [getD_set_self _ _ _ hbi] at hx
      have hmb := hb'.mem_iff.mp hx
      rcases List.mem_cons.mp hmb with hm2 | hm2
      · subst hm2; rfl
      · refine hplace _ (by simpa [hblen] using hbi) x ?_
        rw [hbuck]
        rcases List.mem_append.mp hm2 with h | h
        · exact List.mem_append.mpr (Or.inl h)
        · exact List.mem_append.mpr (Or.inr (List.mem_cons_of_mem e h))
    · rw [getD_set_ne _ _ _ _ hieq] at hx
      exact hplace i (by simpa using hi) x hx

theorem key_in_own_bucket (hf : String → Nat) (c : lru_cache) (k : String)
    (hinv : cache_inv hf c) (hk : k ∈ bucket_keys c) :
    k ∈ (c.buckets.getD (hf k % c.capacity) []).map info.key := by
  obtain ⟨hcap, hblen, hilen, hszle, hperm, hnd, hnid, hbound, hback, hplace⟩ := hinv
  obtain ⟨e, he, hek⟩ := List.mem_map.mp hk
  obtain ⟨j, hj, hjmem⟩ := mem_flatten_idx c.buckets e he
  have hpj := hplace j (List.mem_range.mpr hj) e hjmem
  rw [← hek, hpj]
  exact List.mem_map_of_mem info.key hjmem

theorem cache_inv_put (hf : String → Nat) (c : lru_cache) (k v : String)
    (hinv : cache_inv hf c) : cache_inv hf (lru_cache_put hf c k v).cache := by
  have hinv' := hinv
  obtain ⟨hcap, hblen, hilen, hszle, hperm, hnd, hnid, hbound, hback, hplace⟩ := hinv'
  by_cases hk : k ∈ bucket_keys c
  · -- key already present: the early-return promotion path
    have hkb := key_in_own_bucket hf c k hinv hk
    obtain ⟨p, e, r, hbuck, he, hp⟩ := first_key_decomp _ _ hkb
    have hee : e ∈ cache_entries c :=
      mem_bucket_mem_entries (c := c) (i := hf k % c.capacity) (by rw [hbuck]; simp)
    obtain ⟨n, hn, hnnid, hnk⟩ := hback e hee
    have hfind : find_node c.index e.pointer_to_node = some n := by
      rw [← hnnid]
      exact find_node_eq _ _ hnid hn
    have hscan := lru_put_scan_found k v p e r c.index c.next_id n hp he hfind
      (hnk.trans he)
    obtain ⟨l1, l2, hidx, hl1, herase⟩ := nid_decomp c.index n hnid hn
    have hrem : dll_remove_node c.index e.pointer_to_node = l1 ++ l2 := by
      rw [← hnnid]; exact herase
    simp only [lru_cache_put, hbuck, hscan, hrem, he]
    exact cache_inv_promote_step hf c k v p r e l1 l2 n _ hinv hbuck he hp hidx
      (hnk.trans he) List.perm_middle
  · -- key absent: possible eviction, then insertion
    have hkbi : k ∉ (c.buckets.getD (hf k % c.capacity) []).map info.key :=
      fun hm => hk (key_mem_bucket_keys hm)
    have hscan := lru_put_scan_absent k v (c.buckets.getD (hf k % c.capacity) []) c.index
      c.next_id hkbi
    by_cases hsz : c.size ≥ c.capacity
    · -- eviction happens first
      have hlen : 0 < c.index.length := by omega
      obtain ⟨h0, t, hix⟩ : ∃ h0 t, c.index = h0 :: t := by
        cases hx : c.index with
        | nil => rw [hx] at hlen; simp at hlen
        | cons a b => exact ⟨a, b, rfl⟩
      have hhk : h0.key ∈ bucket_keys c :=
        hperm.symm.mem_iff.mp (by rw [index_keys, hix]; simp)
      have hhb := key_in_own_bucket hf c h0.key hinv hhk
      obtain ⟨p, eh, r, hbuck, he, hp⟩ := first_key_decomp _ _ hhb
      have herase : ll_erase_first_key (c.buckets.getD (hf h0.key % c.capacity) []) h0.key
          = p ++ r := by
        rw [hbuck]
        unfold ll_erase_first_key
        refine eraseP_first _ p r eh ?_ (by simp [he])
        intro x hx
        simp only [beq_eq_false_iff_ne, ne_eq]
        intro heq
        exact hp (heq ▸ List.mem_map_of_mem info.key hx)
      have hdel := cache_inv_delete_step hf c h0.key p r eh [] t h0 hinv hbuck he hp
        (by rw [hix]; rfl) rfl
      set c3 : lru_cache := { c with
        buckets := c.buckets.set (hf h0.key % c.capacity) (p ++ r)
        index := [] ++ t
        size := c.size - 1 } with hc3
      have hk3 : k ∉ bucket_keys c3 := by
        intro hmem
        have hperm3 := hdel.2.2.2.2.1
        have : k ∈ index_keys c3 := hperm3.mem_iff.mp hmem
        have hkidx : k ∈ index_keys c := by
          rw [index_keys, hix]
          simp only [List.map_cons, List.mem_cons]
          exact Or.inr (by simpa [index_keys] using this)
        exact hk (hperm.symm.mem_iff.mp hkidx)
      have hsz3 : c3.size < c3.capacity := by
        have h1 : 1 ≤ c.size := by
          rw [← hilen, hix]; simp
        simp only [hc3]
        omega
      have hins := cache_inv_insert_step hf c3 k v hdel hk3 hsz3
      simp only [lru_cache_put, hscan]
      simp only [Bool.false_eq_true, if_false, list_set_getD_self, ge_iff_le]
      rw [if_pos (show c.capacity ≤ c.size by omega)]
      simp only [hix]
      simp only [herase]
      exact hins
    · -- no eviction
      have hins := cache_inv_insert_step hf c k v hinv hk (by omega)
      simp only [lru_cache_put, hscan]
      simp only [Bool.false_eq_true, if_false, list_set_getD_self, ge_iff_le]
      rw [if_neg (show ¬ c.capacity ≤ c.size by omega)]
      exact hins

theorem cache_inv_get (hf : String → Nat) (c : lru_cache) (k : String)
    (hinv : cache_inv hf c) : cache_inv hf (lru_cache_get hf c k).cache := by
  have hinv' := hinv
  obtain ⟨hcap, hblen, hilen, hszle, hperm, hnd, hnid, hbound, hback, hplace⟩ := hinv'
  by_cases hk : k ∈ bucket_keys c
  · have hkb := key_in_own_bucket hf c k hinv hk
    obtain ⟨p, e, r, hbuck, he, hp⟩ := first_key_decomp _ _ hkb
    have hee : e ∈ cache_entries c :=
      mem_bucket_mem_entries (c := c) (i := hf k % c.capacity) (by rw [hbuck]; simp)
    obtain ⟨n, hn, hnnid, hnk⟩ := hback e hee
    have hfind : find_node c.index e.pointer_to_node = some n := by
      rw [← hnnid]
      exact find_node_eq _ _ hnid hn
    have hscan := lru_get_scan_found k p e r c.index c.next_id [] n hp he hfind
      (hnk.trans he)
    obtain ⟨l1, l2, hidx, hl1, herase⟩ := nid_decomp c.index n hnid hn
    have hrem : dll_remove_node c.index e.pointer_to_node = l1 ++ l2 := by
      rw [← hnnid]; exact herase
    simp only [lru_cache_get, hbuck, hscan, hrem]
    simp only [List.reverse_nil, List.nil_append]
    rw [he]
    exact cache_inv_promote_step hf c k e.value p r e l1 l2 n
      ({ key := k, value := e.value, pointer_to_node := c.next_id } :: (p ++ r))
      hinv hbuck he hp hidx (hnk.trans he) (List.Perm.refl _)
  · have hkbi : k ∉ (c.buckets.getD (hf k % c.capacity) []).map info.key :=
      fun hm => hk (key_mem_bucket_keys hm)
    have hscan := lru_get_scan_absent k c.index c.next_id []
      (c.buckets.getD (hf k % c.capacity) []) hkbi
    simp only [lru_cache_get, hscan]
    simp only [List.reverse_nil, List.nil_append, list_set_getD_self]
    exact hinv

theorem cache_inv_remove (hf : String → Nat) (c : lru_cache) (k : String)
    (hinv : cache_inv hf c) : cache_inv hf (lru_cache_remove hf c k) := by
  have hinv' := hinv
  obtain ⟨hcap, hblen, hilen, hszle, hperm, hnd, hnid, hbound, hback, hplace⟩ := hinv'
  by_cases hk : k ∈ bucket_keys c
  · have hkb := key_in_own_bucket hf c k hinv hk
    obtain ⟨p, e, r, hbuck, he, hp⟩ := first_key_decomp _ _ hkb
    have hee : e ∈ cache_entries c :=
      mem_bucket_mem_entries (c := c) (i := hf k % c.capacity) (by rw [hbuck]; simp)
    obtain ⟨n, hn, hnnid, hnk⟩ := hback e hee
    obtain ⟨l1, l2, hidx, hl1, herase⟩ := nid_decomp c.index n hnid hn
    have hrem : dll_remove_node c.index e.pointer_to_node = l1 ++ l2 := by
      rw [← hnnid]; exact herase
    have hscan := lru_remove_scan_found k p e r c.index [] hp he
    simp only [lru_cache_remove, hbuck, hscan, hrem]
    simp only [List.reverse_nil, List.nil_append]
    exact cache_inv_delete_step hf c k p r e l1 l2 n hinv hbuck he hp hidx
      (hnk.trans he)
  · have hkbi : k ∉ (c.buckets.getD (hf k % c.capacity) []).map info.key :=
      fun hm => hk (key_mem_bucket_keys hm)
    have hscan := lru_remove_scan_absent k c.index [] _ hkbi
    simp only [lru_cache_remove, hscan]
    exact hinv

theorem cache_inv_init (hf : String → Nat) (cap : Nat) (hcap : 0 < cap) :
    cache_inv hf (init_lru_cache cap) := by
  have hflat : (List.replicate cap ([] : List info)).flatten = [] := by
    induction cap with
    | zero => rfl
    | succ n ih => simp [List.replicate_succ, ih]
  have hgetD : ∀ i, (List.replicate cap ([] : List info)).getD i [] = [] := by
    intro i
    rcases Nat.lt_or_ge i cap with h | h
    · rw [List.getD_eq_getElem _ _ (by simpa using h)]
      simp
    · rw [List.getD_eq_default _ _ (by simpa using h)]
  refine ⟨hcap, by simp [init_lru_cache], by simp [init_lru_cache], by simp [init_lru_cache],
    ?_, ?_, ?_, ?_, ?_, ?_⟩ <;>
    simp [init_lru_cache, bucket_keys, index_keys, cache_entries, hflat, hgetD]

theorem cache_inv_apply_ops (hf : String → Nat) (ops : List cache_op) (c : lru_cache)
    (hinv : cache_inv hf c) : cache_inv hf (apply_cache_ops hf ops c) := by
  induction ops generalizing c with
  | nil => exact hinv
  | cons op rest ih =>
    cases op with
    | putOp k v => exact ih _ (cache_inv_put hf c k v hinv)
    | getOp k => exact ih _ (cache_inv_get hf c k hinv)
    | removeOp k => exact ih _ (cache_inv_remove hf c k hinv)

/-- C7: running any sequence of put/get/remove operations on a freshly
initialized cache of positive capacity maintains the structural
invariants: the size never exceeds the capacity, the keys in the bucket
chains are in bijection with the recency list (each bucket key is met by
exactly one recency traversal), and every entry's back-reference reaches
the recency node carrying its own key. -/
theorem C7_cache_invariants (hf : String → Nat) (cap : Nat) (ops : List cache_op)
    (hcap : 0 < cap) :
    (apply_cache_ops hf ops (init_lru_cache cap)).size ≤
      (apply_cache_ops hf ops (init_lru_cache cap)).capacity ∧
    (bucket_keys (apply_cache_ops hf ops (init_lru_cache cap))).Perm
      (index_keys (apply_cache_ops hf ops (init_lru_cache cap))) ∧
    (index_keys (apply_cache_ops hf ops (init_lru_cache cap))).Nodup ∧
    (∀ e ∈ cache_entries (apply_cache_ops hf ops (init_lru_cache cap)),
      ∃ n ∈ (apply_cache_ops hf ops (init_lru_cache cap)).index,
        n.nid = e.pointer_to_node ∧ n.key = e.key) := by
  have h := cache_inv_apply_ops hf ops (init_lru_cache cap) (cache_inv_init hf cap hcap)
  obtain ⟨h1, h2, h3, h4, h5, h6, h7, h8, h9, h10⟩ := h
  exact ⟨h4, h5, h6, h9⟩

/-- Witness for C7 at a concrete capacity and operation sequence. -/
theorem C7_cache_invariants_witness :
    (apply_cache_ops hash_w
        [.putOp "A" "1", .putOp "B" "2", .getOp "A", .putOp "C" "3", .removeOp "A",
          .getOp "Z", .putOp "B" "9"]
        (init_lru_cache 2)).size ≤
      (apply_cache_ops hash_w
        [.putOp "A" "1", .putOp "B" "2", .getOp "A", .putOp "C" "3", .removeOp "A",
          .getOp "Z", .putOp "B" "9"]
        (init_lru_cache 2)).capacity ∧
    (bucket_keys (apply_cache_ops hash_w
        [.putOp "A" "1", .putOp "B" "2", .getOp "A", .putOp "C" "3", .removeOp "A",
          .getOp "Z", .putOp "B" "9"]
        (init_lru_cache 2))).Perm
      (index_keys (apply_cache_ops hash_w
        [.putOp "A" "1", .putOp "B" "2", .getOp "A", .putOp "C" "3", .removeOp "A",
          .getOp "Z", .putOp "B" "9"]
        (init_lru_cache 2))) ∧
    (index_keys (apply_cache_ops hash_w
        [.putOp "A" "1", .putOp "B" "2", .getOp "A", .putOp "C" "3", .removeOp "A",
          .getOp "Z", .putOp "B" "9"]
        (init_lru_cache 2))).Nodup ∧
    (∀ e ∈ cache_entries (apply_cache_ops hash_w
        [.putOp "A" "1", .putOp "B" "2", .getOp "A", .putOp "C" "3", .removeOp "A",
          .getOp "Z", .putOp "B" "9"]
        (init_lru_cache 2)),
      ∃ n ∈ (apply_cache_ops hash_w
        [.putOp "A" "1", .putOp "B" "2", .getOp "A", .putOp "C" "3", .removeOp "A",
          .getOp "Z", .putOp "B" "9"]
        (init_lru_cache 2)).index,
        n.nid = e.pointer_to_node ∧ n.key = e.key) :=
  C7_cache_invariants hash_w 2
    [.putOp "A" "1", .putOp "B" "2", .getOp "A", .putOp "C" "3", .removeOp "A",
      .getOp "Z", .putOp "B" "9"] (by decide)
